import Mathlib

/-!
Verification of the waterz agglomerative region-merging core.

This file gives a shallow embedding, in Lean 4, of the three C++ components
of the repository:

* `BinQueue.hpp` — a bucketed min-priority queue over scores in a bounded
  domain (`BinQueue` namespace below);
* `HistogramQuantileProvider.hpp` — a histogram-based approximate-quantile
  edge-scoring capability (`HQ` namespace below);
* `IterativeRegionMerging.hpp` — the union-find based merging engine
  (`Engine` namespace below).

Scores (`ScoreType`, `Precision` in the C++) are modelled by `ℚ`; the C
`(int)` cast is exact integer truncation toward zero, computed on the
numerator and denominator with `Int.tdiv` so that everything evaluates by
`decide`.  Machine arithmetic aside, the translation follows the source
line by line; components of the repository whose sources are not available
(`RegionGraph.hpp`, `Histogram.hpp`, `discretize.hpp`,
`StatisticsProvider.hpp`) are modelled from the specification and marked
as such in their doc comments.
-/

namespace BinQueue

/-- The state of a `BinQueue<T, ScoreType, N>`: the `N` buckets (`_bins`,
front of each queue at the head of the list) and the cached smallest
non-empty bucket index (`_minBin`, `-1` when the queue is empty). -/
structure BQ (T : Type) where
  bins : List (List T)
  minBin : Int
  deriving DecidableEq, Repr

/-- A fresh `BinQueue` with `N` empty buckets and `_minBin = -1`. -/
def emptyQ (T : Type) (N : Nat) : BQ T :=
  { bins := List.replicate N [], minBin := -1 }

/-- Embeds `scoreToIndex`: computes `i = (int)(score*(N-1))` (exact
truncation toward zero of the rational `score * (N-1)`, computed on the
numerator and denominator so that it evaluates), and fails — `none` models
the thrown `BinQueueOutOfBoundsException` — iff `i < 0 || i >= N`. -/
def scoreToIndex (N : Nat) (score : ℚ) : Option Int :=
  let i : Int := (score.num * ((N : Int) - 1)).tdiv score.den
  if i < 0 ∨ (N : Int) ≤ i then none else some i

/-- Embeds `push(element, score)`: on a valid index, append the element at
the back of bucket `i` and lower the cached `_minBin`; `none` when
`scoreToIndex` throws. -/
def push (N : Nat) (q : BQ T) (e : T) (score : ℚ) : Option (BQ T) :=
  match scoreToIndex N score with
  | none => none
  | some i =>
      some { bins := q.bins.set i.toNat ((q.bins.getD i.toNat []) ++ [e]),
             minBin := if q.minBin = -1 then i else min i q.minBin }

/-- Embeds `top()`: the front element of bucket `_minBin` (`none` models the
undefined behaviour of reading an empty queue). -/
def top (q : BQ T) : Option T :=
  (q.bins.getD q.minBin.toNat []).head?

/-- Embeds the scan in `pop()`: `for (; _minBin < N; _minBin++)` looking for
the first non-empty bucket, `-1` if none is found.  The extra `Nat`
argument is fuel, always called with at least `N + 1`. -/
def scanNext (bins : List (List T)) (N : Nat) : Nat → Nat → Int
  | _, 0 => -1
  | i, fuel + 1 =>
      if i < N then
        if (bins.getD i []).isEmpty then scanNext bins N (i + 1) fuel
        else (i : Int)
      else -1

/-- Embeds `pop()`: remove the front of bucket `_minBin`; if that bucket
became empty, scan forward for the next non-empty bucket or mark the queue
empty. -/
def pop (N : Nat) (q : BQ T) : BQ T :=
  let mb := q.minBin.toNat
  let bins' := q.bins.set mb (q.bins.getD mb []).tail
  if (bins'.getD mb []).isEmpty then
    { bins := bins', minBin := scanNext bins' N mb (N + 1) }
  else
    { bins := bins', minBin := q.minBin }

/-- Folds a sequence of `push` calls, failing if any push throws. -/
def pushAll (N : Nat) : BQ T → List (T × ℚ) → Option (BQ T)
  | q, [] => some q
  | q, (e, s) :: rest =>
      match push N q e s with
      | none => none
      | some q' => pushAll N q' rest

/-- Pops every element of the queue in order (with fuel). -/
def popAllF (N : Nat) : Nat → BQ T → List T
  | 0, _ => []
  | fuel + 1, q =>
      if q.minBin = -1 then []
      else
        match top q with
        | none => []
        | some e => e :: popAllF N fuel (pop N q)

/-- C3, counterexample.  The claim says a push fails exactly when the score
lies outside `[0,1)`.  But a push with score `1` — outside `[0,1)` —
succeeds: `(int)(1*(N-1)) = N-1` is in range, so no range error is thrown
(the source's own comment says scores are assumed in `[0,1]`). -/
theorem c3_push_one_succeeds :
    (push 256 (emptyQ Nat 256) 0 (mkRat 1 1)).isSome = true ∧
      ¬ ((0:ℚ) ≤ mkRat 1 1 ∧ (mkRat 1 1 : ℚ) < 1) := by
  decide

/-- C3, amended.  `push` fails with a range error iff the truncated index
`(int)(score*(N-1))` lies outside `[0, N)` — so score `1`, outside the
claimed domain `[0,1)`, still succeeds — and every push with score in
`[0,1)` succeeds and appends the element to bucket `⌊score*(N-1)⌋`. -/
theorem c3_push_range (T : Type) (N : Nat) (hN : 0 < N) (q : BQ T) (e : T)
    (score : ℚ) (hlen : q.bins.length = N) :
    (push N q e score = none ↔
      ((score.num * ((N : Int) - 1)).tdiv score.den < 0 ∨
        (N : Int) ≤ (score.num * ((N : Int) - 1)).tdiv score.den)) ∧
    (0 ≤ score → score < 1 →
      (score.num * ((N : Int) - 1)).tdiv score.den = ⌊score * ((N : ℚ) - 1)⌋ ∧
      ∃ q', push N q e score = some q' ∧
        q'.bins.getD ((score.num * ((N : Int) - 1)).tdiv score.den).toNat []
          = q.bins.getD
              ((score.num * ((N : Int) - 1)).tdiv score.den).toNat [] ++ [e]) := by
  have hiff : push N q e score = none ↔
      ((score.num * ((N : Int) - 1)).tdiv score.den < 0 ∨
        (N : Int) ≤ (score.num * ((N : Int) - 1)).tdiv score.den) := by
    by_cases hc : ((score.num * ((N : Int) - 1)).tdiv score.den < 0 ∨
        (N : Int) ≤ (score.num * ((N : Int) - 1)).tdiv score.den)
    · have h1 : scoreToIndex N score = none := by
        simp only [scoreToIndex]
        rw [if_pos hc]
      simp [push, h1, hc]
    · have h1 : scoreToIndex N score
          = some ((score.num * ((N : Int) - 1)).tdiv score.den) := by
        simp only [scoreToIndex]
        rw [if_neg hc]
      simp [push, h1, hc]
  refine ⟨hiff, ?_⟩
  intro h0 h1
  have hm : (0:Int) ≤ (N : Int) - 1 := by
    have : (1:Int) ≤ (N : Int) := by exact_mod_cast hN
    omega
  have hnum : 0 ≤ score.num := Rat.num_nonneg.mpr h0
  have hdpos : (0:Int) < (score.den : Int) := Int.natCast_pos.mpr score.pos
  have ha : (0:Int) ≤ score.num * ((N : Int) - 1) := mul_nonneg hnum hm
  have htdiv : (score.num * ((N : Int) - 1)).tdiv score.den
      = (score.num * ((N : Int) - 1)) / (score.den : Int) :=
    Int.tdiv_eq_ediv ha (le_of_lt hdpos)
  have hige : (0:Int) ≤ (score.num * ((N : Int) - 1)) / (score.den : Int) :=
    Int.ediv_nonneg ha (le_of_lt hdpos)
  have hnd : score.num < (score.den : Int) := Rat.lt_one_iff_num_lt_denom.mp h1
  have hilt : (score.num * ((N : Int) - 1)) / (score.den : Int) < (N : Int) := by
    rw [Int.ediv_lt_iff_lt_mul hdpos]
    nlinarith [mul_le_mul_of_nonneg_right
      (show score.num ≤ (score.den : Int) - 1 by omega) hm]
  have hden0 : ((score.den : ℕ) : ℚ) ≠ 0 := by
    exact_mod_cast score.den_nz
  have hsd : (score.num : ℚ) = score * ((score.den : ℕ) : ℚ) := by
    have h2 := Rat.num_div_den score
    rw [div_eq_iff hden0] at h2
    exact h2
  have hfloor : (score.num * ((N : Int) - 1)).tdiv score.den
      = ⌊score * ((N : ℚ) - 1)⌋ := by
    have hq : score * ((N : ℚ) - 1)
        = ((score.num * ((N : Int) - 1) : Int) : ℚ) / ((score.den : ℕ) : ℚ) := by
      rw [eq_div_iff hden0]
      push_cast
      rw [hsd]
      ring
    rw [hq, Rat.floor_intCast_div_natCast, htdiv]
  refine ⟨hfloor, ?_⟩
  have hcond : ¬ ((score.num * ((N : Int) - 1)).tdiv score.den < 0 ∨
      (N : Int) ≤ (score.num * ((N : Int) - 1)).tdiv score.den) := by
    rw [htdiv]
    push_neg
    exact ⟨hige, hilt⟩
  have hSTI : scoreToIndex N score
      = some ((score.num * ((N : Int) - 1)).tdiv score.den) := by
    simp only [scoreToIndex]
    rw [if_neg hcond]
  refine ⟨⟨q.bins.set ((score.num * ((N : Int) - 1)).tdiv score.den).toNat
      (q.bins.getD ((score.num * ((N : Int) - 1)).tdiv score.den).toNat [] ++ [e]),
      if q.minBin = -1 then (score.num * ((N : Int) - 1)).tdiv score.den
      else min ((score.num * ((N : Int) - 1)).tdiv score.den) q.minBin⟩, ?_, ?_⟩
  · simp [push, hSTI]
  · have hlt : ((score.num * ((N : Int) - 1)).tdiv score.den).toNat
        < q.bins.length := by
      rw [hlen, htdiv]
      omega
    simp [List.getD_eq_getElem?_getD, List.getElem?_set_self, hlt]

/-- Witness for C3: the amended theorem applied at `N = 256`, the empty
queue, and score `3/2`, whose truncated index `382` is out of range. -/
theorem c3_push_range_witness :
    (push 256 (emptyQ Nat 256) 7 (mkRat 3 2) = none ↔
      (((mkRat 3 2 : ℚ).num * ((256 : Int) - 1)).tdiv (mkRat 3 2 : ℚ).den < 0 ∨
        (256 : Int) ≤ ((mkRat 3 2 : ℚ).num * ((256 : Int) - 1)).tdiv
          (mkRat 3 2 : ℚ).den)) :=
  (c3_push_range Nat 256 (by decide) (emptyQ Nat 256) 7 (mkRat 3 2)
    (by simp only [emptyQ, List.length_replicate])).1

/-- The elements stored in the queue, cheapest bucket first. -/
def joined (q : BQ T) : List T := q.bins.flatten

/-- Well-formed `BinQueue` state: `N` buckets, and `_minBin` is `-1` with all
buckets empty, or the index of the smallest non-empty bucket. -/
def wfQ (N : Nat) (q : BQ T) : Prop :=
  q.bins.length = N ∧
  ((q.minBin = -1 ∧ ∀ b ∈ q.bins, b = []) ∨
    (∃ mb : Nat, q.minBin = (mb : Int) ∧ mb < N ∧ q.bins.getD mb [] ≠ [] ∧
      ∀ j, j < mb → q.bins.getD j [] = []))

theorem bq_getD_set_ne {α : Type} :
    ∀ (l : List α) (i j : Nat) (a d : α), i ≠ j →
      (l.set i a).getD j d = l.getD j d
  | [], _, _, _, _, _ => rfl
  | _ :: _, 0, 0, _, _, h => absurd rfl h
  | _ :: _, 0, _ + 1, _, _, _ => rfl
  | _ :: _, _ + 1, 0, _, _, _ => rfl
  | _ :: xs, i + 1, j + 1, a, d, h => bq_getD_set_ne xs i j a d (by omega)

theorem bq_getD_set_self {α : Type} :
    ∀ (l : List α) (i : Nat) (a d : α), i < l.length →
      (l.set i a).getD i d = a
  | [], i, _, _, h => absurd h (by simp)
  | _ :: _, 0, _, _, _ => rfl
  | _ :: xs, i + 1, a, d, h => bq_getD_set_self xs i a d (by simpa using h)

theorem bq_drop_set {α : Type} :
    ∀ (l : List α) (i k : Nat) (a : α), i < k → (l.set i a).drop k = l.drop k
  | [], _, _, _, _ => rfl
  | _ :: _, 0, _ + 1, _, _ => rfl
  | _ :: _, _ + 1, 0, _, h => absurd h (by omega)
  | _ :: xs, i + 1, k + 1, a, h => bq_drop_set xs i k a (by omega)

theorem bq_join_decomp {α : Type} :
    ∀ (i : Nat) (l : List (List α)), i < l.length →
      (∀ j, j < i → l.getD j [] = []) →
      l.flatten = l.getD i [] ++ (l.drop (i + 1)).flatten
  | 0, [], h, _ => absurd h (by simp)
  | 0, _ :: _, _, _ => rfl
  | i + 1, [], h, _ => absurd h (by simp)
  | i + 1, b :: t, h, hemp => by
      have hb : b = [] := hemp 0 (by omega)
      have ht := bq_join_decomp i t (by simpa using h)
        (fun j hj => hemp (j + 1) (by omega))
      simp only [List.flatten, hb, List.nil_append]
      exact ht

theorem bq_getD_nil_of_all {α : Type} :
    ∀ (l : List (List α)), (∀ b ∈ l, b = []) → ∀ j, l.getD j [] = []
  | [], _, j => by cases j <;> rfl
  | b :: t, h, 0 => h b (by simp)
  | b :: t, h, j + 1 =>
      bq_getD_nil_of_all t (fun x hx => h x (by simp [hx])) j

theorem bq_all_nil_of_getD {α : Type} :
    ∀ (l : List (List α)), (∀ j, j < l.length → l.getD j [] = []) →
      ∀ b ∈ l, b = []
  | [], _, b, hb => absurd hb (by simp)
  | x :: t, h, b, hb => by
      rcases List.mem_cons.mp hb with hbx | hbt
      · exact hbx.trans (h 0 (by simp))
      · exact bq_all_nil_of_getD t
          (fun j hj => h (j + 1) (by simpa using Nat.succ_lt_succ hj)) b hbt

theorem bq_join_nil_of_all {α : Type} :
    ∀ (l : List (List α)), (∀ b ∈ l, b = []) → l.flatten = []
  | [], _ => rfl
  | b :: t, h => by
      have hb : b = [] := h b (by simp)
      have ht := bq_join_nil_of_all t (fun x hx => h x (by simp [hx]))
      simp [hb, ht]

theorem bq_scanNext_spec (bins : List (List T)) (N : Nat) :
    ∀ (fuel i : Nat), N ≤ i + fuel →
      (scanNext bins N i fuel = -1 ∧
        ∀ j, i ≤ j → j < N → bins.getD j [] = []) ∨
      (∃ k : Nat, scanNext bins N i fuel = (k : Int) ∧ i ≤ k ∧ k < N ∧
        bins.getD k [] ≠ [] ∧ ∀ j, i ≤ j → j < k → bins.getD j [] = []) := by
  intro fuel
  induction fuel with
  | zero =>
      intro i hfuel
      exact Or.inl ⟨rfl, fun j hij hjN => absurd hjN (by omega)⟩
  | succ fuel ih =>
      intro i hfuel
      by_cases hiN : i < N
      · by_cases hempty : (bins.getD i []).isEmpty
        · have hstep : scanNext bins N i (fuel + 1) = scanNext bins N (i + 1) fuel := by
            simp only [scanNext]
            rw [if_pos hiN, if_pos hempty]
          have hieq : bins.getD i [] = [] := List.isEmpty_iff.mp hempty
          rcases ih (i + 1) (by omega) with ⟨heq, hall⟩ | ⟨k, heq, hik, hkN, hne, hall⟩
          · refine Or.inl ⟨hstep.trans heq, fun j hij hjN => ?_⟩
            rcases Nat.eq_or_lt_of_le hij with hji | hji
            · exact hji ▸ hieq
            · exact hall j hji hjN
          · refine Or.inr ⟨k, hstep.trans heq, by omega, hkN, hne, fun j hij hjk => ?_⟩
            rcases Nat.eq_or_lt_of_le hij with hji | hji
            · exact hji ▸ hieq
            · exact hall j hji hjk
        · refine Or.inr ⟨i, ?_, le_refl i, hiN, ?_, fun j hij hji => absurd hij (by omega)⟩
          · simp only [scanNext]
            rw [if_pos hiN, if_neg hempty]
          · intro hc
            exact hempty (by rw [hc]; rfl)
      · refine Or.inl ⟨by simp only [scanNext]; rw [if_neg hiN],
          fun j hij hjN => absurd hjN (by omega)⟩

theorem bq_pop_bins (N : Nat) (q : BQ T) :
    (pop N q).bins
      = q.bins.set q.minBin.toNat (q.bins.getD q.minBin.toNat []).tail := by
  simp only [pop]
  split <;> rfl

theorem bq_pop_lemma (N : Nat) (q : BQ T) (mb : Nat) (hw : wfQ N q)
    (hmb : q.minBin = (mb : Int)) :
    top q = (joined q).head? ∧ joined (pop N q) = (joined q).tail ∧
      wfQ N (pop N q) := by
  obtain ⟨hlen, hcase⟩ := hw
  rcases hcase with ⟨hm1, _⟩ | ⟨mb', hmb', hmbN, hne, hbelow⟩
  · rw [hm1] at hmb
    exact absurd hmb.symm (by omega)
  have hmbeq : mb' = mb := by
    rw [hmb] at hmb'
    exact_mod_cast hmb'.symm
  subst hmbeq
  have htn : q.minBin.toNat = mb' := by rw [hmb]; exact Int.toNat_natCast mb'
  have hmlen : mb' < q.bins.length := by omega
  have hdecomp : q.bins.flatten
      = q.bins.getD mb' [] ++ (q.bins.drop (mb' + 1)).flatten :=
    bq_join_decomp mb' q.bins hmlen hbelow
  obtain ⟨x, bt, hbucket⟩ : ∃ x bt, q.bins.getD mb' [] = x :: bt := by
    cases hb : q.bins.getD mb' [] with
    | nil => exact absurd hb hne
    | cons x bt => exact ⟨x, bt, rfl⟩
  have htop : top q = (joined q).head? := by
    unfold top joined
    rw [htn, hdecomp, hbucket, List.cons_append]
    rfl
  have hbins' : (pop N q).bins = q.bins.set mb' (q.bins.getD mb' []).tail := by
    rw [bq_pop_bins, htn]
  have hbelow' : ∀ j, j < mb' → ((pop N q).bins).getD j [] = [] := by
    intro j hj
    rw [hbins', bq_getD_set_ne _ _ _ _ _ (by omega)]
    exact hbelow j hj
  have hlen' : (pop N q).bins.length = N := by
    rw [hbins', List.length_set, hlen]
  have hgetmb : ((pop N q).bins).getD mb' [] = (q.bins.getD mb' []).tail := by
    rw [hbins']
    exact bq_getD_set_self _ _ _ _ hmlen
  have hjoin' : joined (pop N q) = (joined q).tail := by
    unfold joined
    have hdec' : (pop N q).bins.flatten
        = ((pop N q).bins).getD mb' [] ++ ((pop N q).bins.drop (mb' + 1)).flatten :=
      bq_join_decomp mb' (pop N q).bins (by omega) hbelow'
    rw [hdec', hgetmb, hbins', bq_drop_set _ _ _ _ (by omega), hdecomp, hbucket]
    simp
  refine ⟨htop, hjoin', hlen', ?_⟩
  by_cases hre : ((q.bins.set mb' (q.bins.getD mb' []).tail).getD mb' []).isEmpty
  case pos =>
    have hmin' : (pop N q).minBin
        = scanNext (q.bins.set mb' (q.bins.getD mb' []).tail) N mb' (N + 1) := by
      simp only [pop, htn]
      rw [if_pos hre]
    rcases bq_scanNext_spec (q.bins.set mb' (q.bins.getD mb' []).tail) N (N + 1) mb'
        (by omega) with ⟨heq, hall⟩ | ⟨k, heq, hmk, hkN, hkne, hall⟩
    · refine Or.inl ⟨hmin'.trans heq, ?_⟩
      apply bq_all_nil_of_getD
      intro j hj
      rw [hlen'] at hj
      rw [hbins']
      rcases Nat.lt_or_ge j mb' with hjm | hjm
      · rw [bq_getD_set_ne _ _ _ _ _ (by omega)]
        exact hbelow j hjm
      · exact hall j hjm hj
    · refine Or.inr ⟨k, hmin'.trans heq, hkN, by rw [hbins']; exact hkne, ?_⟩
      intro j hj
      rw [hbins']
      rcases Nat.lt_or_ge j mb' with hjm | hjm
      · rw [bq_getD_set_ne _ _ _ _ _ (by omega)]
        exact hbelow j hjm
      · exact hall j hjm hj
  case neg =>
    have hmin' : (pop N q).minBin = q.minBin := by
      simp only [pop, htn]
      rw [if_neg hre]
    refine Or.inr ⟨mb', hmin'.trans hmb, hmbN, ?_, ?_⟩
    · rw [hbins', bq_getD_set_self _ _ _ _ hmlen]
      intro hc
      exact hre (by rw [bq_getD_set_self _ _ _ _ hmlen, hc]; rfl)
    · intro j hj
      rw [hbins', bq_getD_set_ne _ _ _ _ _ (by omega)]
      exact hbelow j hj

theorem bq_popAll_joined (N : Nat) :
    ∀ (fuel : Nat) (q : BQ T), wfQ N q → (joined q).length ≤ fuel →
      popAllF N fuel q = joined q := by
  intro fuel
  induction fuel with
  | zero =>
      intro q _ hlen
      have hnil : joined q = [] := List.length_eq_zero.mp (by omega)
      rw [hnil]
      rfl
  | succ fuel ih =>
      intro q hw hlen
      rcases hw.2 with ⟨hm1, hall⟩ | ⟨mb, hmb, _, _, _⟩
      · have hj : joined q = [] := bq_join_nil_of_all q.bins hall
        unfold popAllF
        rw [if_pos hm1, hj]
      · obtain ⟨htop, hjoin, hw'⟩ := bq_pop_lemma N q mb hw hmb
        have hmne : ¬ q.minBin = -1 := by rw [hmb]; omega
        cases hjq : joined q with
        | nil =>
            unfold popAllF
            rw [if_neg hmne, htop, hjq]
            rfl
        | cons x js =>
            have hlen2 : js.length ≤ fuel := by
              rw [hjq] at hlen
              simpa using hlen
            unfold popAllF
            rw [if_neg hmne, htop, hjq]
            show x :: popAllF N fuel (pop N q) = x :: js
            have hrec : popAllF N fuel (pop N q) = joined (pop N q) := by
              apply ih _ hw'
              rw [hjoin, hjq]
              simpa using hlen2
            rw [hrec, hjoin, hjq]
            rfl

theorem bq_scoreToIndex_some (N : Nat) (s : ℚ) (i : Int)
    (h : scoreToIndex N s = some i) : 0 ≤ i ∧ i < N := by
  unfold scoreToIndex at h
  by_cases hc : ((s.num * ((N : Int) - 1)).tdiv s.den < 0 ∨
      (N : Int) ≤ (s.num * ((N : Int) - 1)).tdiv s.den)
  · rw [if_pos hc] at h
    exact absurd h (by simp)
  · rw [if_neg hc] at h
    have := Option.some_injective _ h
    push_neg at hc
    omega

theorem bq_push_wf (N : Nat) (q q' : BQ T) (e : T) (s : ℚ) (hw : wfQ N q)
    (h : push N q e s = some q') : wfQ N q' := by
  obtain ⟨hlen, hcase⟩ := hw
  unfold push at h
  cases hSTI : scoreToIndex N s with
  | none => rw [hSTI] at h; exact Option.noConfusion h
  | some i =>
      rw [hSTI] at h
      obtain ⟨hi0, hiN⟩ := bq_scoreToIndex_some N s i hSTI
      have hq' : q' = ⟨q.bins.set i.toNat ((q.bins.getD i.toNat []) ++ [e]),
          if q.minBin = -1 then i else min i q.minBin⟩ :=
        (Option.some_injective _ h).symm
      have hklen : i.toNat < q.bins.length := by omega
      have hlen' : q'.bins.length = N := by rw [hq']; simp [hlen]
      refine ⟨hlen', Or.inr ?_⟩
      rcases hcase with ⟨hm1, hall⟩ | ⟨mb, hmb, hmbN, hne, hbelow⟩
      · refine ⟨i.toNat, ?_, by omega, ?_, ?_⟩
        · rw [hq']
          simp only
          rw [if_pos hm1]
          omega
        · rw [hq']
          simp only
          rw [bq_getD_set_self _ _ _ _ hklen]
          simp
        · intro j hj
          rw [hq']
          simp only
          rw [bq_getD_set_ne _ _ _ _ _ (by omega)]
          exact bq_getD_nil_of_all q.bins hall j
      · have hmne : ¬ q.minBin = -1 := by rw [hmb]; omega
        rcases Nat.lt_or_ge mb i.toNat with hmi | hmi
        · refine ⟨mb, ?_, hmbN, ?_, ?_⟩
          · rw [hq']
            simp only
            rw [if_neg hmne, hmb]
            omega
          · rw [hq']
            simp only
            rw [bq_getD_set_ne _ _ _ _ _ (by omega)]
            exact hne
          · intro j hj
            rw [hq']
            simp only
            rw [bq_getD_set_ne _ _ _ _ _ (by omega)]
            exact hbelow j hj
        · refine ⟨i.toNat, ?_, by omega, ?_, ?_⟩
          · rw [hq']
            simp only
            rw [if_neg hmne, hmb]
            omega
          · rw [hq']
            simp only
            rw [bq_getD_set_self _ _ _ _ hklen]
            simp
          · intro j hj
            rw [hq']
            simp only
            rw [bq_getD_set_ne _ _ _ _ _ (by omega)]
            rcases Nat.lt_or_ge j mb with hjm | hjm
            · exact hbelow j hjm
            · exact absurd hjm (by omega)

theorem bq_pushAll_spec (N : Nat) :
    ∀ (l : List (T × ℚ)) (q : BQ T), wfQ N q →
      (∀ p ∈ l, (scoreToIndex N p.2).isSome) →
      ∃ q', pushAll N q l = some q' ∧ wfQ N q' ∧
        ∀ k : Nat, k < N →
          q'.bins.getD k []
            = q.bins.getD k [] ++
              (l.filter (fun p => scoreToIndex N p.2 = some (k : Int))).map
                Prod.fst := by
  intro l
  induction l with
  | nil =>
      intro q hw _
      exact ⟨q, rfl, hw, fun k _ => by simp⟩
  | cons p rest ih =>
      intro q hw hv
      obtain ⟨e, s⟩ := p
      obtain ⟨i, hSTI⟩ := Option.isSome_iff_exists.mp (hv (e, s) (by simp))
      obtain ⟨hi0, hiN⟩ := bq_scoreToIndex_some N s i hSTI
      have hklen : i.toNat < q.bins.length := by rw [hw.1]; omega
      set q1 : BQ T := ⟨q.bins.set i.toNat ((q.bins.getD i.toNat []) ++ [e]),
          if q.minBin = -1 then i else min i q.minBin⟩ with hq1
      have hpush : push N q e s = some q1 := by
        unfold push
        rw [hSTI]
      have hw1 : wfQ N q1 := bq_push_wf N q q1 e s hw hpush
      obtain ⟨q', hq', hw', hbuck⟩ := ih q1 hw1 (fun p hp => hv p (by simp [hp]))
      refine ⟨q', ?_, hw', ?_⟩
      · unfold pushAll
        rw [hpush]
        exact hq'
      · intro k hk
        rw [hbuck k hk]
        by_cases hik : i = (k : Int)
        · have hkt : i.toNat = k := by omega
          have h1 : q1.bins.getD k [] = q.bins.getD k [] ++ [e] := by
            rw [hq1]
            simp only
            rw [← hkt, bq_getD_set_self _ _ _ _ hklen]
          have hfilt : ((e, s) :: rest).filter
              (fun p => scoreToIndex N p.2 = some (k : Int))
              = (e, s) :: rest.filter (fun p => scoreToIndex N p.2 = some (k : Int)) := by
            rw [List.filter_cons]
            simp only [hSTI, hik]
            simp
          rw [h1, hfilt]
          simp
        · have hkt : i.toNat ≠ k := by omega
          have h1 : q1.bins.getD k [] = q.bins.getD k [] := by
            rw [hq1]
            simp only
            rw [bq_getD_set_ne _ _ _ _ _ hkt]
          have hfilt : ((e, s) :: rest).filter
              (fun p => scoreToIndex N p.2 = some (k : Int))
              = rest.filter (fun p => scoreToIndex N p.2 = some (k : Int)) := by
            rw [List.filter_cons]
            simp only [hSTI]
            simp [hik]
          rw [h1, hfilt]

theorem bq_eq_range_map {α : Type} (d : α) :
    ∀ (l : List α), l = (List.range l.length).map (fun k => l.getD k d)
  | [] => rfl
  | x :: xs => by
      have ih := bq_eq_range_map d xs
      rw [List.length_cons, List.range_succ_eq_map, List.map_cons, List.map_map]
      have : (fun k => (x :: xs).getD k d) ∘ Nat.succ = fun k => xs.getD k d := rfl
      rw [this]
      exact congrArg (x :: ·) ih

theorem bq_wf_empty (T : Type) (N : Nat) : wfQ N (emptyQ T N) := by
  refine ⟨by simp [emptyQ], Or.inl ⟨rfl, ?_⟩⟩
  intro b hb
  exact List.eq_of_mem_replicate hb

/-- C5, counterexample.  Two pushes into the same bucket come out in FIFO
order even when the second score is strictly smaller, so the pop order is
not globally non-decreasing in score: with `N = 4`, scores `1/100` and
`1/200` both land in bucket `0`, and the element with score `1/100` is
popped before the element with score `1/200`. -/
theorem c5_not_score_sorted :
    (∃ q, pushAll 4 (emptyQ (Nat × ℚ) 4)
        [((0, mkRat 1 100), mkRat 1 100), ((1, mkRat 1 200), mkRat 1 200)]
        = some q ∧
      popAllF 4 2 q = [(0, mkRat 1 100), (1, mkRat 1 200)]) ∧
      ¬ ((mkRat 1 100 : ℚ) ≤ mkRat 1 200) := by
  refine ⟨⟨_, rfl, ?_⟩, by decide⟩
  decide

/-- C5, amended.  For every sequence of pushes whose scores discretize to a
valid bucket, popping the whole queue yields the concatenation, in
ascending bucket order, of the per-bucket subsequences in push (FIFO)
order: the pop order is non-decreasing in the bucket `(int)(score*(N-1))`
(hence in score up to bucket resolution), with FIFO order inside each
bucket — but not non-decreasing in the exact score. -/
theorem c5_pop_bucket_fifo (T : Type) (N : Nat) (l : List (T × ℚ))
    (hv : ∀ p ∈ l, (scoreToIndex N p.2).isSome) :
    ∃ q, pushAll N (emptyQ T N) l = some q ∧
      popAllF N (joined q).length q =
        ((List.range N).map (fun (k : Nat) =>
          (l.filter (fun p => scoreToIndex N p.2 = some ((k : Nat) : Int))).map
            Prod.fst)).flatten := by
  obtain ⟨q, hq, hw, hbuck⟩ := bq_pushAll_spec N l (emptyQ T N) (bq_wf_empty T N) hv
  refine ⟨q, hq, ?_⟩
  rw [bq_popAll_joined N (joined q).length q hw (le_refl _)]
  unfold joined
  conv_lhs => rw [bq_eq_range_map ([]) q.bins]
  rw [hw.1]
  congr 1
  apply List.map_congr_left
  intro k hk
  have hkN : k < N := List.mem_range.mp hk
  rw [hbuck k hkN]
  have hempty : (emptyQ T N).bins.getD k [] = [] := by
    apply bq_getD_nil_of_all
    intro b hb
    exact List.eq_of_mem_replicate hb
  rw [hempty, List.nil_append]

/-- Witness for C5's amended theorem at a concrete push sequence: scores
`1/2`, `1/100`, `1/2` over `N = 4` buckets. -/
theorem c5_pop_bucket_fifo_witness :
    ∃ q, pushAll 4 (emptyQ Nat 4)
        [(10, mkRat 1 2), (20, mkRat 1 100), (30, mkRat 1 2)] = some q ∧
      popAllF 4 (joined q).length q =
        ((List.range 4).map (fun (k : Nat) =>
          ([(10, mkRat 1 2), (20, mkRat 1 100), (30, mkRat 1 2)].filter
            (fun p => scoreToIndex 4 p.2 = some ((k : Nat) : Int))).map
            Prod.fst)).flatten :=
  c5_pop_bucket_fifo Nat 4
    [(10, mkRat 1 2), (20, mkRat 1 100), (30, mkRat 1 2)] (by decide)

end BinQueue

namespace HQ

/-- Modelled from the spec: `Histogram.hpp` is not among the sources; per
the spec's data model, a histogram is a fixed-size array of counts over
discretized affinity bins.  It is modelled as a list of counts. -/
abbrev Histogram := List Nat

/-- Modelled from the spec: `Histogram::inc(bin)` increments one bin. -/
def incH (h : Histogram) (bin : Nat) : Histogram :=
  h.set bin (h.getD bin 0 + 1)

/-- Modelled from the spec: histogram `operator+=` adds bin-wise. -/
def addH (h g : Histogram) : Histogram := List.zipWith (· + ·) h g

/-- Modelled from the spec: `Histogram::clear()` zeroes all bins. -/
def clearH (Bins : Nat) : Histogram := List.replicate Bins 0

/-- Modelled from the spec: `discretize<int>(value, Bins)` (in the missing
`discretize.hpp`) maps an affinity assumed in `[0,1]` into one of `Bins`
buckets: truncation of `value * Bins` clamped into `[0, Bins)`, computed
exactly on numerator and denominator. -/
def discretize (v : ℚ) (Bins : Nat) : Nat :=
  min ((v.num * Bins).tdiv v.den).toNat (Bins - 1)

/-- Modelled from the spec: `undiscretize<Precision>(bin, Bins)` returns the
bin's representative value, its midpoint `(bin + 1/2)/Bins`, as an exact
rational. -/
def undiscretize (Bins bin : Nat) : ℚ := mkRat (2 * bin + 1) (2 * Bins)

/-- The `_histograms` edge map of `HistogramQuantileProvider`: a list
indexed by edge id; out-of-range reads give an empty histogram. -/
def histAt (Bins : Nat) (hs : List Histogram) (e : Nat) : Histogram :=
  hs.getD e (clearH Bins)

/-- Embeds `addAffinity(e, affinity)`: discretize the affinity and
increment that bin of edge `e`'s histogram. -/
def addAffinity (Bins : Nat) (hs : List Histogram) (e : Nat) (v : ℚ) :
    List Histogram :=
  hs.set e (incH (histAt Bins hs e) (discretize v Bins))

/-- Embeds `notifyEdgeMerge(from, to)`: `_histograms[to] += _histograms[from]`
followed by `_histograms[from].clear()` (note the aliasing when
`from = to`: the doubled histogram is then cleared). -/
def notifyEdgeMergeH (Bins : Nat) (hs : List Histogram) (f t : Nat) :
    List Histogram :=
  (hs.set t (addH (histAt Bins hs t) (histAt Bins hs f))).set f (clearH Bins)

/-- Embeds the bin scan of `operator[]`: starting from accumulated count
`acc` at index `bin`, add bin counts until the running sum reaches `pivot`;
the result is the final value of `bin` — one past the last bin when the
pivot is never reached. -/
def binScan (pivot : Nat) : Nat → Nat → List Nat → Nat
  | _, bin, [] => bin
  | acc, bin, c :: rest =>
      if pivot ≤ acc + c then bin else binScan pivot (acc + c) (bin + 1) rest

/-- Embeds `operator[]` up to the final `undiscretize` call: the 1-based
pivot `Q*sum/100 + 1` (integer division) and the ascending bin scan. -/
def quantileBin (Q : Nat) (h : List Nat) : Nat :=
  binScan (Q * h.sum / 100 + 1) 0 0 h

/-- Embeds `operator[]` of `HistogramQuantileProvider`: the undiscretized
quantile bin of a histogram. -/
def scoreQ (Q Bins : Nat) (h : List Nat) : ℚ :=
  undiscretize Bins (quantileBin Q h)

/-- A call against the provider: `addAffinity` or `notifyEdgeMerge`. -/
inductive HOp where
  | add (e : Nat) (v : ℚ)
  | merge (f t : Nat)
  deriving DecidableEq

/-- Applies one provider call. -/
def applyOp (Bins : Nat) (hs : List Histogram) : HOp → List Histogram
  | .add e v => addAffinity Bins hs e v
  | .merge f t => notifyEdgeMergeH Bins hs f t

/-- Applies a sequence of provider calls. -/
def applyOps (Bins : Nat) (hs : List Histogram) (ops : List HOp) :
    List Histogram :=
  ops.foldl (applyOp Bins) hs

/-- The total bin count summed over all edge histograms. -/
def totalCount (hs : List Histogram) : Nat := (hs.map List.sum).sum

/-- The number of `addAffinity` calls in a sequence. -/
def countAdds : List HOp → Nat
  | [] => 0
  | .add _ _ :: rest => countAdds rest + 1
  | .merge _ _ :: rest => countAdds rest

/-- Validity of a call sequence against a provider with `E` edges: all edge
ids in range and no self-merge. -/
def validOps (E : Nat) : List HOp → Bool
  | [] => true
  | .add e _ :: rest => decide (e < E) && validOps E rest
  | .merge f t :: rest =>
      decide (f < E) && decide (t < E) && decide (f ≠ t) && validOps E rest

/-- The fresh provider state for a region graph with `E` edges. -/
def initH (E Bins : Nat) : List Histogram :=
  List.replicate E (clearH Bins)

theorem hq_sum_set_nat :
    ∀ (l : List Nat) (i a : Nat), i < l.length →
      (l.set i a).sum + l.getD i 0 = l.sum + a
  | [], i, _, h => absurd h (by simp)
  | x :: xs, 0, a, _ => by simp [List.sum_cons]; omega
  | x :: xs, i + 1, a, h => by
      have ih := hq_sum_set_nat xs i a (by simpa using h)
      simp only [List.set_cons_succ, List.sum_cons]
      have hg : (x :: xs).getD (i + 1) 0 = xs.getD i 0 := rfl
      rw [hg]
      omega

theorem hq_sum_map_set (f : Histogram → Nat) :
    ∀ (l : List Histogram) (i : Nat) (a d : Histogram), i < l.length →
      ((l.set i a).map f).sum + f (l.getD i d) = (l.map f).sum + f a
  | [], i, _, _, h => absurd h (by simp)
  | x :: xs, 0, a, _, _ => by simp [List.sum_cons]; omega
  | x :: xs, i + 1, a, d, h => by
      have ih := hq_sum_map_set f xs i a d (by simpa using h)
      simp only [List.set_cons_succ, List.map_cons, List.sum_cons]
      have hg : (x :: xs).getD (i + 1) d = xs.getD i d := rfl
      rw [hg]
      omega

theorem hq_sum_incH (h : Histogram) (bin : Nat) (hb : bin < h.length) :
    (incH h bin).sum = h.sum + 1 := by
  unfold incH
  have := hq_sum_set_nat h bin (h.getD bin 0 + 1) hb
  omega

theorem hq_sum_addH :
    ∀ (h g : Histogram), h.length = g.length → (addH h g).sum = h.sum + g.sum
  | [], [], _ => rfl
  | [], _ :: _, hl => absurd hl (by simp)
  | _ :: _, [], hl => absurd hl (by simp)
  | x :: xs, y :: ys, hl => by
      have ih := hq_sum_addH xs ys (by simpa using hl)
      simp only [addH, List.zipWith_cons_cons, List.sum_cons] at ih ⊢
      omega

theorem hq_sum_clearH (Bins : Nat) : (clearH Bins).sum = 0 := by
  unfold clearH
  induction Bins with
  | zero => rfl
  | succ n ih => simpa using ih

theorem hq_len_addH (h g : Histogram) (hl : h.length = g.length) :
    (addH h g).length = h.length := by
  simp [addH, hl]

theorem hq_mem_set {α : Type} :
    ∀ (l : List α) (i : Nat) (a x : α), x ∈ l.set i a → x = a ∨ x ∈ l
  | [], _, _, _, hx => Or.inr hx
  | _ :: _, 0, a, x, hx => by
      rcases List.mem_cons.mp hx with h | h
      · exact Or.inl h
      · exact Or.inr (List.mem_cons_of_mem _ h)
  | y :: ys, i + 1, a, x, hx => by
      rcases List.mem_cons.mp hx with h | h
      · exact Or.inr (h ▸ List.mem_cons_self y ys)
      · rcases hq_mem_set ys i a x h with h' | h'
        · exact Or.inl h'
        · exact Or.inr (List.mem_cons_of_mem _ h')

theorem hq_getD_mem {α : Type} :
    ∀ (l : List α) (i : Nat) (d : α), i < l.length → l.getD i d ∈ l
  | [], i, _, h => absurd h (by simp)
  | x :: xs, 0, _, _ => List.mem_cons_self x xs
  | x :: xs, i + 1, d, h =>
      List.mem_cons_of_mem x (hq_getD_mem xs i d (by simpa using h))

theorem hq_histAt_len (Bins : Nat) (hs : List Histogram) (e : Nat)
    (hh : ∀ h ∈ hs, h.length = Bins) : (histAt Bins hs e).length = Bins := by
  unfold histAt
  rcases Nat.lt_or_ge e hs.length with he | he
  · exact hh _ (hq_getD_mem hs e (clearH Bins) he)
  · rw [List.getD_eq_default]
    · simp [clearH]
    · exact he

/-- C6, counterexample.  A `notifyEdgeMerge(e, e)` call with `from = to`
doubles the edge's histogram in place and then clears it, losing every
count: after one `addAffinity` and one self-merge the total bin count is
`0`, not `1`. -/
theorem c6_self_merge_loses_counts :
    totalCount (applyOps 4 (initH 1 4)
        [HOp.add 0 (mkRat 1 2), HOp.merge 0 0]) = 0 ∧
      countAdds [HOp.add 0 (mkRat 1 2), HOp.merge 0 0] = 1 := by
  decide

theorem c6_total_aux (E Bins : Nat) (hBins : 0 < Bins) :
    ∀ (ops : List HOp) (hs : List Histogram), validOps E ops = true →
      hs.length = E → (∀ h ∈ hs, h.length = Bins) →
      totalCount (applyOps Bins hs ops) = totalCount hs + countAdds ops := by
  intro ops
  induction ops with
  | nil => intro hs _ _ _; rfl
  | cons op rest ih =>
      intro hs hv hlen hh
      cases op with
      | add e v =>
          have hv' : (decide (e < E) && validOps E rest) = true := hv
          have heE : e < E := by
            have := Bool.and_elim_left hv'
            simpa using this
          have hrest : validOps E rest = true := Bool.and_elim_right hv'
          have hbin : discretize v Bins < Bins := by
            unfold discretize
            omega
          have hhl : (histAt Bins hs e).length = Bins := hq_histAt_len Bins hs e hh
          have hstep : totalCount (addAffinity Bins hs e v) = totalCount hs + 1 := by
            unfold addAffinity totalCount
            have hsm := hq_sum_map_set List.sum hs e
              (incH (histAt Bins hs e) (discretize v Bins)) (clearH Bins)
              (by omega)
            have hinc : (incH (histAt Bins hs e) (discretize v Bins)).sum
                = (histAt Bins hs e).sum + 1 :=
              hq_sum_incH _ _ (by omega)
            unfold histAt at hsm hinc ⊢
            omega
          have hlen1 : (addAffinity Bins hs e v).length = E := by
            simp [addAffinity, hlen]
          have hh1 : ∀ h ∈ addAffinity Bins hs e v, h.length = Bins := by
            intro h hm
            rcases hq_mem_set _ _ _ _ hm with h' | h'
            · rw [h']
              unfold incH
              rw [List.length_set]
              exact hq_histAt_len Bins hs e hh
            · exact hh h h'
          show totalCount (applyOps Bins (addAffinity Bins hs e v) rest) = _
          rw [ih (addAffinity Bins hs e v) hrest hlen1 hh1, hstep]
          show totalCount hs + 1 + countAdds rest = totalCount hs + (countAdds rest + 1)
          omega
      | merge f t =>
          have hv' : (decide (f < E) && decide (t < E) && decide (f ≠ t)
              && validOps E rest) = true := hv
          have hfE : f < E := by
            have := Bool.and_elim_left (Bool.and_elim_left (Bool.and_elim_left hv'))
            simpa using this
          have htE : t < E := by
            have := Bool.and_elim_right (Bool.and_elim_left (Bool.and_elim_left hv'))
            simpa using this
          have hft : f ≠ t := by
            have := Bool.and_elim_right (Bool.and_elim_left hv')
            simpa using this
          have hrest : validOps E rest = true := Bool.and_elim_right hv'
          have hflen : (histAt Bins hs f).length = Bins := hq_histAt_len Bins hs f hh
          have htlen : (histAt Bins hs t).length = Bins := hq_histAt_len Bins hs t hh
          set hs1 := hs.set t (addH (histAt Bins hs t) (histAt Bins hs f)) with hhs1
          have hlen1 : hs1.length = E := by simp [hhs1, hlen]
          have h1 : totalCount hs1 + (histAt Bins hs t).sum
              = totalCount hs + (addH (histAt Bins hs t) (histAt Bins hs f)).sum := by
            have hthis := hq_sum_map_set List.sum hs t
              (addH (histAt Bins hs t) (histAt Bins hs f)) (clearH Bins) (by omega)
            unfold totalCount
            rw [hhs1]
            unfold histAt
            unfold histAt at hthis
            omega
          have hadd : (addH (histAt Bins hs t) (histAt Bins hs f)).sum
              = (histAt Bins hs t).sum + (histAt Bins hs f).sum :=
            hq_sum_addH _ _ (by omega)
          have hs1f : hs1.getD f (clearH Bins) = histAt Bins hs f := by
            rw [hhs1]
            unfold histAt
            exact BinQueue.bq_getD_set_ne hs t f _ _ (fun hc => hft hc.symm)
          have h2 : totalCount (hs1.set f (clearH Bins)) + (histAt Bins hs f).sum
              = totalCount hs1 + (clearH Bins).sum := by
            unfold totalCount
            have := hq_sum_map_set List.sum hs1 f (clearH Bins) (clearH Bins)
              (by omega)
            rw [hs1f] at this
            omega
          have hstep : totalCount (notifyEdgeMergeH Bins hs f t) = totalCount hs := by
            unfold notifyEdgeMergeH
            rw [← hhs1]
            have hcs := hq_sum_clearH Bins
            omega
          have hh1 : ∀ h ∈ hs1.set f (clearH Bins), h.length = Bins := by
            intro h hm
            rcases hq_mem_set _ _ _ _ hm with h' | h'
            · rw [h']; simp [clearH]
            · rcases hq_mem_set _ _ _ _ (hhs1 ▸ h') with h'' | h''
              · rw [h'']
                rw [hq_len_addH _ _ (by omega)]
                exact htlen
              · exact hh h h''
          have hlen2 : (hs1.set f (clearH Bins)).length = E := by
            simp [hlen1]
          show totalCount (applyOps Bins (notifyEdgeMergeH Bins hs f t) rest) = _
          have hnm : notifyEdgeMergeH Bins hs f t = hs1.set f (clearH Bins) := by
            rw [hhs1]
            rfl
          rw [hnm, ih (hs1.set f (clearH Bins)) hrest hlen2 hh1, ← hnm, hstep]
          rfl

/-- C6, amended.  For every sequence of `addAffinity` and `notifyEdgeMerge`
calls with in-range edge ids and `from ≠ to`, the total bin count over all
edge histograms equals the number of `addAffinity` calls; without the
`from ≠ to` restriction the claim fails (see the counterexample: a
self-merge destroys the counts of its edge). -/
theorem c6_total_count (E Bins : Nat) (hBins : 0 < Bins) (ops : List HOp)
    (hv : validOps E ops = true) :
    totalCount (applyOps Bins (initH E Bins) ops) = countAdds ops := by
  have h0 : totalCount (initH E Bins) = 0 := by
    unfold totalCount initH
    induction E with
    | zero => rfl
    | succ n ih => simpa [hq_sum_clearH Bins] using ih
  have := c6_total_aux E Bins hBins ops (initH E Bins) hv
    (by simp [initH]) (by
      intro h hm
      rw [List.eq_of_mem_replicate hm]
      simp [clearH])
  rw [this, h0]
  omega

/-- Witness for C6's amended theorem: two additions and one proper merge on
a two-edge provider. -/
theorem c6_total_count_witness :
    totalCount (applyOps 4 (initH 2 4)
        [HOp.add 0 (mkRat 1 3), HOp.add 1 (mkRat 2 3), HOp.merge 0 1])
      = countAdds [HOp.add 0 (mkRat 1 3), HOp.add 1 (mkRat 2 3), HOp.merge 0 1] :=
  c6_total_count 2 4 (by decide)
    [HOp.add 0 (mkRat 1 3), HOp.add 1 (mkRat 2 3), HOp.merge 0 1] (by decide)

theorem hq_binScan_all_zero (p : Nat) :
    ∀ (h : List Nat) (acc bin : Nat), acc < p → (∀ c ∈ h, c = 0) →
      binScan p acc bin h = bin + h.length
  | [], acc, bin, _, _ => by simp [binScan]
  | c :: rest, acc, bin, hacc, hall => by
      have hc : c = 0 := hall c (by simp)
      have hnotle : ¬ p ≤ acc + c := by omega
      unfold binScan
      rw [if_neg hnotle]
      rw [hq_binScan_all_zero p rest (acc + c) (bin + 1) (by omega)
        (fun x hx => hall x (by simp [hx]))]
      simp only [List.length_cons]
      omega

theorem hq_sum_zero_all_zero :
    ∀ (h : List Nat), h.sum = 0 → ∀ c ∈ h, c = 0
  | [], _, c, hc => absurd hc (by simp)
  | x :: rest, hs, c, hc => by
      simp only [List.sum_cons] at hs
      rcases List.mem_cons.mp hc with h' | h'
      · omega
      · exact hq_sum_zero_all_zero rest (by omega) c h'

/-- C9, confirmed.  Reading the quantile of an edge whose histogram holds
zero samples raises no error: the pivot is `Q*0/100 + 1 = 1`, the running
sum never reaches it, the scan exits with `bin = Bins` (one past the last
valid bin), and the returned value is the undiscretized representative of
index `Bins` — the same value for every zero-sample edge, independent of
`Q`. -/
theorem c9_zero_sample_score (Q Bins : Nat) (hs : List Histogram) (e : Nat)
    (hlen : (histAt Bins hs e).length = Bins)
    (hsum : (histAt Bins hs e).sum = 0) :
    quantileBin Q (histAt Bins hs e) = Bins ∧
      scoreQ Q Bins (histAt Bins hs e) = undiscretize Bins Bins := by
  have hall : ∀ c ∈ histAt Bins hs e, c = 0 := hq_sum_zero_all_zero _ hsum
  have hbin : quantileBin Q (histAt Bins hs e) = Bins := by
    unfold quantileBin
    rw [hq_binScan_all_zero _ _ 0 0 (by omega) hall]
    omega
  exact ⟨hbin, by unfold scoreQ; rw [hbin]⟩

/-- Witness for C9: a zero-sample edge of an empty provider with `Q = 50`
and `Bins = 4`. -/
theorem c9_zero_sample_score_witness :
    quantileBin 50 (histAt 4 [] 0) = 4 ∧
      scoreQ 50 4 (histAt 4 [] 0) = undiscretize 4 4 :=
  c9_zero_sample_score 50 4 [] 0 (by decide) (by decide)

/-- The bin scan in subtracted form, equivalent to `binScan` and easier to
reason about. -/
def binScanS (p : Nat) : List Nat → Nat
  | [] => 0
  | c :: rest => if p ≤ c then 0 else binScanS (p - c) rest + 1

theorem hq_binScan_eq_sub (p : Nat) :
    ∀ (h : List Nat) (acc bin : Nat), acc < p →
      binScan p acc bin h = bin + binScanS (p - acc) h
  | [], _, _, _ => by simp [binScan, binScanS]
  | c :: rest, acc, bin, hacc => by
      unfold binScan binScanS
      by_cases hle : p ≤ acc + c
      · rw [if_pos hle, if_pos (by omega : p - acc ≤ c)]
        omega
      · rw [if_neg hle, if_neg (by omega : ¬ p - acc ≤ c)]
        rw [hq_binScan_eq_sub p rest (acc + c) (bin + 1) (by omega)]
        have hpp : p - (acc + c) = p - acc - c := by omega
        rw [hpp]
        omega

theorem hq_binScanS_le_len (p : Nat) :
    ∀ (h : List Nat), binScanS p h ≤ h.length
  | [] => le_refl 0
  | c :: rest => by
      unfold binScanS
      split
      · simp
      · have := hq_binScanS_le_len (p - c) rest
        simp only [List.length_cons]
        omega

/-- Running sum of the first `n` bins. -/
def takeSum (h : List Nat) (n : Nat) : Nat := (h.take n).sum

theorem hq_binScanS_exit :
    ∀ (h : List Nat) (p : Nat), binScanS p h < h.length →
      p ≤ takeSum h (binScanS p h + 1)
  | [], p, hlt => absurd hlt (by simp [binScanS])
  | c :: rest, p, hlt => by
      unfold binScanS at hlt ⊢
      by_cases hle : p ≤ c
      · rw [if_pos hle]
        simpa [takeSum] using hle
      · rw [if_neg hle] at hlt ⊢
        have hlt' : binScanS (p - c) rest < rest.length := by
          simp only [List.length_cons] at hlt
          omega
        have ih := hq_binScanS_exit rest (p - c) hlt'
        unfold takeSum at ih ⊢
        simp only [List.take_succ_cons, List.sum_cons]
        omega

theorem hq_binScanS_pre :
    ∀ (h : List Nat) (p b : Nat), b < binScanS p h → takeSum h (b + 1) < p
  | [], p, b, hb => absurd hb (by simp [binScanS])
  | c :: rest, p, b, hb => by
      unfold binScanS at hb
      by_cases hle : p ≤ c
      · rw [if_pos hle] at hb
        exact absurd hb (by omega)
      · rw [if_neg hle] at hb
        cases b with
        | zero =>
            unfold takeSum
            simp only [List.take_succ_cons, List.take_zero, List.sum_cons,
              List.sum_nil]
            omega
        | succ b' =>
            have ih := hq_binScanS_pre rest (p - c) b' (by omega)
            unfold takeSum at ih ⊢
            simp only [List.take_succ_cons, List.sum_cons]
            omega

theorem hq_takeSum_addH :
    ∀ (h g : List Nat), h.length = g.length → ∀ n,
      takeSum (addH h g) n = takeSum h n + takeSum g n
  | [], [], _, n => by simp [takeSum, addH]
  | [], _ :: _, hl, _ => absurd hl (by simp)
  | _ :: _, [], hl, _ => absurd hl (by simp)
  | x :: xs, y :: ys, hl, n => by
      cases n with
      | zero => simp [takeSum]
      | succ n =>
          have ih := hq_takeSum_addH xs ys (by simpa using hl) n
          simp only [addH, List.zipWith_cons_cons, takeSum, List.take_succ_cons,
            List.sum_cons] at ih ⊢
          omega

theorem hq_div_add_le (a b c : Nat) : a / c + b / c ≤ (a + b) / c := by
  rcases Nat.eq_zero_or_pos c with hc | hc
  · simp [hc]
  · rw [Nat.le_div_iff_mul_le hc]
    have h1 := Nat.div_mul_le_self a c
    have h2 := Nat.div_mul_le_self b c
    have hx : (a / c + b / c) * c = a / c * c + b / c * c := by ring
    omega

theorem hq_quantileBin_le_len (Q : Nat) (h : List Nat) :
    quantileBin Q h ≤ h.length := by
  unfold quantileBin
  rw [hq_binScan_eq_sub _ h 0 0 (by omega)]
  simpa using hq_binScanS_le_len _ h

/-- The key monotonicity fact behind the engine's rescoring assertion: the
quantile bin of a merged histogram is at least the smaller of the two
quantile bins (superadditivity of the integer-division pivot plus the
prefix-sum characterization of the scan). -/
theorem hq_quantileBin_merge (Q : Nat) (h g : List Nat)
    (hl : h.length = g.length) :
    min (quantileBin Q h) (quantileBin Q g) ≤ quantileBin Q (addH h g) := by
  have hlm : (addH h g).length = h.length := hq_len_addH h g hl
  have hsum : (addH h g).sum = h.sum + g.sum := hq_sum_addH h g hl
  have hB1 : quantileBin Q h = binScanS (Q * h.sum / 100 + 1) h := by
    unfold quantileBin
    rw [hq_binScan_eq_sub _ h 0 0 (by omega)]
    simp
  have hB2 : quantileBin Q g = binScanS (Q * g.sum / 100 + 1) g := by
    unfold quantileBin
    rw [hq_binScan_eq_sub _ g 0 0 (by omega)]
    simp
  have hB12 : quantileBin Q (addH h g)
      = binScanS (Q * (addH h g).sum / 100 + 1) (addH h g) := by
    unfold quantileBin
    rw [hq_binScan_eq_sub _ (addH h g) 0 0 (by omega)]
    simp
  by_contra hcon
  push_neg at hcon
  have hlt1 : quantileBin Q (addH h g) < quantileBin Q h :=
    lt_of_lt_of_le hcon (min_le_left _ _)
  have hlt2 : quantileBin Q (addH h g) < quantileBin Q g :=
    lt_of_lt_of_le hcon (min_le_right _ _)
  have hlen12 : quantileBin Q (addH h g) < (addH h g).length := by
    have := hq_quantileBin_le_len Q h
    omega
  have hexit : Q * (addH h g).sum / 100 + 1
      ≤ takeSum (addH h g) (quantileBin Q (addH h g) + 1) := by
    have := hq_binScanS_exit (addH h g) (Q * (addH h g).sum / 100 + 1)
      (by rw [← hB12]; exact hlen12)
    rw [← hB12] at this
    exact this
  have hpre1 : takeSum h (quantileBin Q (addH h g) + 1) < Q * h.sum / 100 + 1 :=
    hq_binScanS_pre h (Q * h.sum / 100 + 1) _ (by rw [← hB1]; exact hlt1)
  have hpre2 : takeSum g (quantileBin Q (addH h g) + 1) < Q * g.sum / 100 + 1 :=
    hq_binScanS_pre g (Q * g.sum / 100 + 1) _ (by rw [← hB2]; exact hlt2)
  have hts : takeSum (addH h g) (quantileBin Q (addH h g) + 1)
      = takeSum h (quantileBin Q (addH h g) + 1)
        + takeSum g (quantileBin Q (addH h g) + 1) :=
    hq_takeSum_addH h g hl _
  have hdiv : Q * h.sum / 100 + Q * g.sum / 100 ≤ Q * (h.sum + g.sum) / 100 := by
    have := hq_div_add_le (Q * h.sum) (Q * g.sum) 100
    rw [← Nat.mul_add] at this
    exact this
  rw [hsum] at hexit
  omega

theorem hq_undiscretize_mono (Bins : Nat) {a b : Nat} (hab : a ≤ b) :
    undiscretize Bins a ≤ undiscretize Bins b := by
  unfold undiscretize
  rw [Rat.mkRat_eq_div, Rat.mkRat_eq_div]
  rcases Nat.eq_zero_or_pos Bins with h0 | hpos
  · simp [h0]
  · have hxy : ((2 * a + 1 : Nat) : ℚ) ≤ ((2 * b + 1 : Nat) : ℚ) := by
      exact_mod_cast (by omega : 2 * a + 1 ≤ 2 * b + 1)
    have hc : (0:ℚ) < ((2 * Bins : Nat) : ℚ) := by
      exact_mod_cast (by omega : 0 < 2 * Bins)
    exact (div_le_div_right hc).mpr hxy

theorem hq_scoreQ_merge (Q Bins : Nat) (h g : List Nat)
    (hl : h.length = g.length) :
    min (scoreQ Q Bins h) (scoreQ Q Bins g) ≤ scoreQ Q Bins (addH h g) := by
  unfold scoreQ
  have hbin := hq_quantileBin_merge Q h g hl
  rcases le_total (quantileBin Q h) (quantileBin Q g) with hle | hle
  · refine le_trans (min_le_left _ _) (hq_undiscretize_mono Bins ?_)
    rw [min_eq_left hle] at hbin
    exact hbin
  · refine le_trans (min_le_right _ _) (hq_undiscretize_mono Bins ?_)
    rw [min_eq_right hle] at hbin
    exact hbin

theorem hq_scoreQ_le_max (Q Bins : Nat) (h : List Nat) (hl : h.length = Bins) :
    scoreQ Q Bins h ≤ undiscretize Bins Bins :=
  hq_undiscretize_mono Bins (hl ▸ hq_quantileBin_le_len Q h)

theorem hq_scoreQ_clear (Q Bins : Nat) :
    scoreQ Q Bins (clearH Bins) = undiscretize Bins Bins := by
  unfold scoreQ
  congr 1
  unfold quantileBin
  rw [hq_binScan_all_zero _ (clearH Bins) 0 0 (by omega)
    (fun c hc => List.eq_of_mem_replicate hc)]
  simp [clearH]

end HQ


namespace UF

/-- The `_rootPaths` member of the engine: an association list from node id
to parent node id; root nodes are absent (`isRoot` is key absence).  The
engine prepends fresh links, so keys are unique in engine-produced maps. -/
abbrev RootMap := List (Nat × Nat)

/-- Map lookup (`_rootPaths.count` / `_rootPaths.at`). -/
def lookupM : RootMap → Nat → Option Nat
  | [], _ => none
  | (k, v) :: rest, x => if k = x then some v else lookupM rest x

/-- The root-finding walk of `getRoot` (`root = at(id); while (!isRoot(root))
root = at(root)`), with fuel. -/
def walkF : Nat → RootMap → Nat → Option Nat
  | 0, _, _ => none
  | fuel + 1, m, x =>
      match lookupM m x with
      | none => some x
      | some p => walkF fuel m p

/-- The root of `x`: the walk with fuel `|m| + 1`, which suffices on every
well-formed map. -/
def rootD (m : RootMap) (x : Nat) : Option Nat := walkF (m.length + 1) m x

/-- Pointwise parent rewrite `_rootPaths[id] = root` of an existing key. -/
def updN : RootMap → Nat → Nat → RootMap
  | [], _, _ => []
  | (k, v) :: rest, nd, r =>
      (if k = nd then (k, r) else (k, v)) :: updN rest nd r

/-- The path-compression loop of `getRoot`
(`while (id != root) { next = at(id); _rootPaths[id] = root; id = next; }`),
with fuel. -/
def compress : Nat → RootMap → Nat → Nat → RootMap
  | 0, m, _, _ => m
  | fuel + 1, m, nd, root =>
      if nd = root then m
      else
        match lookupM m nd with
        | none => m
        | some next => compress fuel (updN m nd root) next root

/-- Embeds `getRoot`: early exit for roots, walk up to the root, then
compress the visited path (guarded by `at(id) != root`).  Returns the root
and the updated map. -/
def getRoot (m : RootMap) (x : Nat) : Nat × RootMap :=
  match lookupM m x with
  | none => (x, m)
  | some p =>
      match walkF (m.length + 1) m p with
      | none => (x, m)
      | some root =>
          (root, if p = root then m else compress (m.length + 1) m x root)

/-- The union-find link made by `mergeRegions`: `_rootPaths[b] = a` when
region `b` is absorbed into region `a`. -/
def ufLink (m : RootMap) (a b : Nat) : RootMap := (b, a) :: m

/-- Applies a sequence of merges `(a, b)` — absorb `b` into `a`. -/
def ufApply (m : RootMap) : List (Nat × Nat) → RootMap
  | [] => m
  | (a, b) :: rest => ufApply (ufLink m a b) rest

/-- Validity of a merge sequence as the engine produces it: each merge
joins two (distinct) current roots. -/
def validMerges : RootMap → List (Nat × Nat) → Bool
  | _, [] => true
  | m, (a, b) :: rest =>
      (lookupM m a).isNone && (lookupM m b).isNone && decide (a ≠ b) &&
        validMerges (ufLink m a b) rest

/-- Well-formedness of a root map: the walk from every key terminates
within the fuel `|m| + 1`. -/
def wfM (m : RootMap) : Prop :=
  ∀ p ∈ m, (walkF (m.length + 1) m p.1).isSome

theorem uf_lookupM_link (m : RootMap) (a b y : Nat) :
    lookupM (ufLink m a b) y = if b = y then some a else lookupM m y := rfl

theorem uf_walkF_mono :
    ∀ (f : Nat) (m : RootMap) (x r : Nat), walkF f m x = some r →
      ∀ k, walkF (f + k) m x = some r
  | 0, _, _, _, h, _ => absurd h (by simp [walkF])
  | f + 1, m, x, r, h, k => by
      rw [show f + 1 + k = (f + k) + 1 by omega]
      cases hl : lookupM m x with
      | none => simp only [walkF, hl] at h ⊢; exact h
      | some p =>
          simp only [walkF, hl] at h ⊢
          exact uf_walkF_mono f m p r h k

theorem uf_walkF_root :
    ∀ (f : Nat) (m : RootMap) (x r : Nat), walkF f m x = some r →
      lookupM m r = none
  | 0, _, _, _, h => absurd h (by simp [walkF])
  | f + 1, m, x, r, h => by
      cases hl : lookupM m x with
      | none =>
          simp only [walkF, hl] at h
          exact (Option.some_injective _ h) ▸ hl
      | some p =>
          simp only [walkF, hl] at h
          exact uf_walkF_root f m p r h

theorem uf_lookupM_some_mem :
    ∀ (m : RootMap) (x v : Nat), lookupM m x = some v → (x, v) ∈ m
  | [], _, _, h => absurd h (by simp [lookupM])
  | (k, w) :: rest, x, v, h => by
      unfold lookupM at h
      by_cases hk : k = x
      · rw [if_pos hk] at h
        subst hk
        exact (Option.some_injective _ h) ▸ List.mem_cons_self _ _
      · rw [if_neg hk] at h
        exact List.mem_cons_of_mem _ (uf_lookupM_some_mem rest x v h)

theorem uf_wf_rootD (m : RootMap) (hw : wfM m) (x : Nat) :
    (rootD m x).isSome := by
  cases hl : lookupM m x with
  | none =>
      unfold rootD
      simp [walkF, hl]
  | some p =>
      exact hw (x, p) (uf_lookupM_some_mem m x p hl)

theorem uf_rootD_root (m : RootMap) (x r : Nat) (h : rootD m x = some r) :
    lookupM m r = none :=
  uf_walkF_root _ m x r h

theorem uf_rootD_of_root (m : RootMap) (x : Nat) (h : lookupM m x = none) :
    rootD m x = some x := by
  unfold rootD
  simp [walkF, h]

theorem uf_rootD_step (m : RootMap) (x p r : Nat) (hl : lookupM m x = some p)
    (h : rootD m x = some r) : rootD m p = some r := by
  unfold rootD at h
  simp only [walkF, hl] at h
  have := uf_walkF_mono m.length m p r h 1
  unfold rootD
  simpa using this

theorem uf_lookupM_updN_self :
    ∀ (m : RootMap) (nd r p : Nat), lookupM m nd = some p →
      lookupM (updN m nd r) nd = some r
  | [], _, _, _, h => absurd h (by simp [lookupM])
  | (k, w) :: rest, nd, r, p, h => by
      unfold lookupM at h
      unfold updN
      by_cases hk : k = nd
      · rw [if_pos hk]
        unfold lookupM
        rw [if_pos hk]
      · rw [if_neg hk] at h
        rw [if_neg hk]
        unfold lookupM
        rw [if_neg hk]
        exact uf_lookupM_updN_self rest nd r p h

theorem uf_lookupM_updN_ne :
    ∀ (m : RootMap) (nd r y : Nat), y ≠ nd →
      lookupM (updN m nd r) y = lookupM m y
  | [], _, _, _, _ => rfl
  | (k, w) :: rest, nd, r, y, hy => by
      unfold updN
      by_cases hk : k = nd
      · rw [if_pos hk]
        show lookupM ((k, r) :: updN rest nd r) y = lookupM ((k, w) :: rest) y
        unfold lookupM
        have hky : ¬ k = y := by omega
        rw [if_neg hky, if_neg hky]
        exact uf_lookupM_updN_ne rest nd r y hy
      · rw [if_neg hk]
        show lookupM ((k, w) :: updN rest nd r) y = lookupM ((k, w) :: rest) y
        unfold lookupM
        by_cases hky : k = y
        · rw [if_pos hky, if_pos hky]
        · rw [if_neg hky, if_neg hky]
          exact uf_lookupM_updN_ne rest nd r y hy

theorem uf_updN_length :
    ∀ (m : RootMap) (nd r : Nat), (updN m nd r).length = m.length
  | [], _, _ => rfl
  | (k, w) :: rest, nd, r => by
      unfold updN
      simp only [List.length_cons]
      rw [uf_updN_length rest nd r]

theorem uf_mem_updN_key :
    ∀ (m : RootMap) (nd r : Nat) (p : Nat × Nat), p ∈ updN m nd r →
      ∃ v, (p.1, v) ∈ m
  | [], _, _, _, hp => absurd hp (by simp [updN])
  | (k, w) :: rest, nd, r, p, hp => by
      unfold updN at hp
      rcases List.mem_cons.mp hp with h | h
      · by_cases hk : k = nd
        · rw [if_pos hk] at h
          exact ⟨w, by rw [h]; exact List.mem_cons_self _ _⟩
        · rw [if_neg hk] at h
          exact ⟨w, by rw [h]; exact List.mem_cons_self _ _⟩
      · obtain ⟨v, hv⟩ := uf_mem_updN_key rest nd r p h
        exact ⟨v, List.mem_cons_of_mem _ hv⟩

theorem uf_walkF_updN (m : RootMap) (nd p0 r : Nat)
    (hid : lookupM m nd = some p0)
    (hwr : rootD m nd = some r) :
    ∀ (f : Nat) (y ry : Nat), walkF f m y = some ry →
      walkF f (updN m nd r) y = some ry
  | 0, _, _, h => absurd h (by simp [walkF])
  | f + 1, y, ry, h => by
      by_cases hy : y = nd
      · rw [hy] at h ⊢
        simp only [walkF, hid] at h
        cases f with
        | zero => exact absurd h (by simp [walkF])
        | succ f' =>
            have hry : ry = r := by
              have h1 := uf_walkF_mono (f' + 1) m p0 ry h (m.length + 1)
              have h2 : rootD m p0 = some r := uf_rootD_step m nd p0 r hid hwr
              have h3 := uf_walkF_mono (m.length + 1) m p0 r h2 (f' + 1)
              rw [Nat.add_comm (m.length + 1) (f' + 1)] at h3
              rw [h1] at h3
              exact Option.some_injective _ h3
            rw [hry]
            have hrr : lookupM m r = none := uf_rootD_root m nd r hwr
            have hrn : r ≠ nd := by
              intro hc
              rw [hc, hid] at hrr
              exact Option.noConfusion hrr
            have hup1 : lookupM (updN m nd r) nd = some r :=
              uf_lookupM_updN_self m nd r p0 hid
            have hup2 : lookupM (updN m nd r) r = none := by
              rw [uf_lookupM_updN_ne m nd r r hrn]
              exact hrr
            simp [walkF, hup1, hup2]
      · cases hl : lookupM m y with
        | none =>
            simp only [walkF, hl] at h
            have hup : lookupM (updN m nd r) y = lookupM m y :=
              uf_lookupM_updN_ne m nd r y hy
            simp only [walkF, hup, hl]
            exact h
        | some q =>
            simp only [walkF, hl] at h
            have hup : lookupM (updN m nd r) y = lookupM m y :=
              uf_lookupM_updN_ne m nd r y hy
            simp only [walkF, hup, hl]
            exact uf_walkF_updN m nd p0 r hid hwr f q ry h

theorem uf_rootD_updN (m : RootMap) (nd p0 r : Nat)
    (hid : lookupM m nd = some p0) (hwr : rootD m nd = some r)
    (hw : wfM m) : ∀ y, rootD (updN m nd r) y = rootD m y := by
  intro y
  obtain ⟨ry, hry⟩ := Option.isSome_iff_exists.mp (uf_wf_rootD m hw y)
  have := uf_walkF_updN m nd p0 r hid hwr (m.length + 1) y ry hry
  unfold rootD
  rw [uf_updN_length, this, ← hry]
  rfl

theorem uf_wfM_updN (m : RootMap) (nd p0 r : Nat)
    (hid : lookupM m nd = some p0) (hwr : rootD m nd = some r)
    (hw : wfM m) : wfM (updN m nd r) := by
  intro p hp
  obtain ⟨v, hv⟩ := uf_mem_updN_key m nd r p hp
  obtain ⟨ry, hry⟩ := Option.isSome_iff_exists.mp (uf_wf_rootD m hw p.1)
  have := uf_walkF_updN m nd p0 r hid hwr (m.length + 1) p.1 ry hry
  rw [uf_updN_length]
  simp [this]

theorem uf_dom_updN (m : RootMap) (nd r p0 : Nat)
    (hid : lookupM m nd = some p0) :
    ∀ y, lookupM (updN m nd r) y = none ↔ lookupM m y = none := by
  intro y
  by_cases hy : y = nd
  · rw [hy, uf_lookupM_updN_self m nd r p0 hid, hid]
    simp
  · rw [uf_lookupM_updN_ne m nd r y hy]

theorem uf_compress_spec :
    ∀ (fuel : Nat) (m : RootMap) (nd root : Nat), wfM m →
      rootD m nd = some root →
      (∀ y, rootD (compress fuel m nd root) y = rootD m y) ∧
      wfM (compress fuel m nd root) ∧
      (compress fuel m nd root).length = m.length ∧
      (∀ y, lookupM (compress fuel m nd root) y = none ↔ lookupM m y = none)
  | 0, m, nd, root, hw, hr =>
      ⟨fun _ => rfl, hw, rfl, fun _ => Iff.rfl⟩
  | fuel + 1, m, nd, root, hw, hr => by
      unfold compress
      by_cases hir : nd = root
      · rw [if_pos hir]
        exact ⟨fun _ => rfl, hw, rfl, fun _ => Iff.rfl⟩
      · rw [if_neg hir]
        cases hl : lookupM m nd with
        | none => exact ⟨fun _ => rfl, hw, rfl, fun _ => Iff.rfl⟩
        | some next =>
            have hnext : rootD m next = some root :=
              uf_rootD_step m nd next root hl hr
            have hupd := uf_rootD_updN m nd next root hl hr hw
            have hwupd := uf_wfM_updN m nd next root hl hr hw
            have hnext' : rootD (updN m nd root) next = some root := by
              rw [hupd next]
              exact hnext
            obtain ⟨ih1, ih2, ih3, ih4⟩ :=
              uf_compress_spec fuel (updN m nd root) next root hwupd hnext'
            refine ⟨?_, ih2, ?_, ?_⟩
            · intro y
              rw [ih1 y, hupd y]
            · rw [ih3, uf_updN_length]
            · intro y
              rw [ih4 y, uf_dom_updN m nd root next hl y]

theorem uf_getRoot_spec (m : RootMap) (x : Nat) (hw : wfM m) :
    (∃ r, rootD m x = some r ∧ (getRoot m x).1 = r) ∧
      (∀ y, rootD ((getRoot m x).2) y = rootD m y) ∧
      wfM (getRoot m x).2 ∧
      ((getRoot m x).2).length = m.length ∧
      (∀ y, lookupM ((getRoot m x).2) y = none ↔ lookupM m y = none) := by
  cases hl : lookupM m x with
  | none =>
      have hr : rootD m x = some x := uf_rootD_of_root m x hl
      have hgr : getRoot m x = (x, m) := by simp only [getRoot, hl]
      rw [hgr]
      exact ⟨⟨x, hr, rfl⟩, fun _ => rfl, hw, rfl, fun _ => Iff.rfl⟩
  | some p =>
      obtain ⟨r, hr⟩ := Option.isSome_iff_exists.mp (uf_wf_rootD m hw x)
      have hwp : walkF m.length m p = some r := by
        unfold rootD at hr
        simpa [walkF, hl] using hr
      have hwp1 : walkF (m.length + 1) m p = some r :=
        uf_walkF_mono m.length m p r hwp 1
      have hgr : getRoot m x
          = (r, if p = r then m else compress (m.length + 1) m x r) := by
        simp only [getRoot, hl, hwp1]
      rw [hgr]
      by_cases hpr : p = r
      · rw [if_pos hpr]
        exact ⟨⟨r, hr, rfl⟩, fun _ => rfl, hw, rfl, fun _ => Iff.rfl⟩
      · rw [if_neg hpr]
        obtain ⟨c1, c2, c3, c4⟩ := uf_compress_spec (m.length + 1) m x r hw hr
        exact ⟨⟨r, hr, rfl⟩, c1, c2, c3, c4⟩

theorem uf_walkF_link (m : RootMap) (a b : Nat) (hbd : lookupM m b = none)
    (had : lookupM m a = none) (hab : a ≠ b) :
    ∀ (f : Nat) (y r : Nat), walkF f m y = some r →
      walkF (f + 1) (ufLink m a b) y = some (if r = b then a else r)
  | 0, _, _, h => absurd h (by simp [walkF])
  | f + 1, y, r, h => by
      cases hl : lookupM m y with
      | none =>
          simp only [walkF, hl] at h
          have hyr : y = r := Option.some_injective _ h
          rw [← hyr]
          by_cases hyb : y = b
          · rw [if_pos hyb]
            have h1 : lookupM (ufLink m a b) y = some a := by
              rw [uf_lookupM_link, if_pos hyb.symm]
            have h2 : lookupM (ufLink m a b) a = none := by
              rw [uf_lookupM_link, if_neg (fun hc => hab hc.symm)]
              exact had
            rw [show f + 1 + 1 = (f + 1) + 1 from rfl]
            simp [walkF, h1, h2]
          · rw [if_neg hyb]
            have h1 : lookupM (ufLink m a b) y = none := by
              rw [uf_lookupM_link, if_neg (fun hc => hyb hc.symm)]
              exact hl
            simp [walkF, h1]
      | some p =>
          simp only [walkF, hl] at h
          have hyb : y ≠ b := by
            intro hc
            rw [hc, hbd] at hl
            exact Option.noConfusion hl
          have h1 : lookupM (ufLink m a b) y = some p := by
            rw [uf_lookupM_link, if_neg (fun hc => hyb hc.symm)]
            exact hl
          rw [show f + 1 + 1 = (f + 1) + 1 from rfl]
          simp only [walkF, h1]
          exact uf_walkF_link m a b hbd had hab f p r h

theorem uf_rootD_link (m : RootMap) (a b : Nat) (hbd : lookupM m b = none)
    (had : lookupM m a = none) (hab : a ≠ b) (y r : Nat)
    (h : rootD m y = some r) :
    rootD (ufLink m a b) y = some (if r = b then a else r) := by
  unfold rootD
  have := uf_walkF_link m a b hbd had hab (m.length + 1) y r h
  simpa [ufLink] using this

theorem uf_wfM_link (m : RootMap) (a b : Nat) (hbd : lookupM m b = none)
    (had : lookupM m a = none) (hab : a ≠ b) (hw : wfM m) :
    wfM (ufLink m a b) := by
  intro p hp
  rcases List.mem_cons.mp hp with hp1 | hp2
  · have hb : rootD m b = some b := uf_rootD_of_root m b hbd
    have hlink := uf_rootD_link m a b hbd had hab b b hb
    rw [hp1]
    unfold rootD at hlink
    simp only [ufLink, List.length_cons] at hlink ⊢
    simp [hlink]
  · obtain ⟨r, hr⟩ := Option.isSome_iff_exists.mp (uf_wf_rootD m hw p.1)
    have hlink := uf_rootD_link m a b hbd had hab p.1 r hr
    unfold rootD at hlink
    simp only [ufLink, List.length_cons] at hlink ⊢
    simp [hlink]

theorem uf_valid_append (m : RootMap) :
    ∀ (l1 l2 : List (Nat × Nat)),
      validMerges m (l1 ++ l2) = true ↔
        (validMerges m l1 = true ∧ validMerges (ufApply m l1) l2 = true) := by
  intro l1
  induction l1 generalizing m with
  | nil => intro l2; simp [validMerges, ufApply]
  | cons ab rest ih =>
      intro l2
      obtain ⟨a, b⟩ := ab
      simp only [List.cons_append, validMerges, ufApply, Bool.and_eq_true,
        List.append_eq]
      rw [ih (ufLink m a b) l2]
      tauto

theorem uf_wfM_apply (m : RootMap) :
    ∀ (l : List (Nat × Nat)), validMerges m l = true → wfM m →
      wfM (ufApply m l) := by
  intro l
  induction l generalizing m with
  | nil => intro _ hw; exact hw
  | cons ab rest ih =>
      obtain ⟨a, b⟩ := ab
      intro hv hw
      simp only [validMerges, Bool.and_eq_true] at hv
      obtain ⟨⟨⟨ha, hb⟩, hab⟩, hrest⟩ := hv
      have hw' := uf_wfM_link m a b
        (Option.isNone_iff_eq_none.mp hb) (Option.isNone_iff_eq_none.mp ha)
        (by simpa using hab) hw
      exact ih (ufLink m a b) hrest hw'

theorem uf_eq_apply (x y : Nat) :
    ∀ (l : List (Nat × Nat)) (m : RootMap), validMerges m l = true → wfM m →
      ∀ rx, rootD m x = some rx → rootD m y = some rx →
      ∃ r, rootD (ufApply m l) x = some r ∧ rootD (ufApply m l) y = some r := by
  intro l
  induction l with
  | nil => intro m _ _ rx h1 h2; exact ⟨rx, h1, h2⟩
  | cons ab rest ih =>
      obtain ⟨a, b⟩ := ab
      intro m hv hw rx h1 h2
      simp only [validMerges, Bool.and_eq_true] at hv
      obtain ⟨⟨⟨ha, hb⟩, hab⟩, hrest⟩ := hv
      have ha' := Option.isNone_iff_eq_none.mp ha
      have hb' := Option.isNone_iff_eq_none.mp hb
      have hab' : a ≠ b := by simpa using hab
      have hw' := uf_wfM_link m a b hb' ha' hab' hw
      have hx' := uf_rootD_link m a b hb' ha' hab' x rx h1
      have hy' := uf_rootD_link m a b hb' ha' hab' y rx h2
      exact ih (ufLink m a b) hrest hw' (if rx = b then a else rx) hx' hy'

theorem uf_ufApply_append :
    ∀ (l1 l2 : List (Nat × Nat)) (m : RootMap),
      ufApply m (l1 ++ l2) = ufApply (ufApply m l1) l2
  | [], _, _ => rfl
  | (a, b) :: rest, l2, m => by
      simp only [List.cons_append, ufApply]
      exact uf_ufApply_append rest l2 (ufLink m a b)

/-- C7, confirmed.  For every merge sequence the engine can produce (each
step absorbs root `b` into root `a`), after the whole sequence `getRoot b`
and `getRoot a` (threading the compressed map of the first call into the
second, as the engine does) return the same root, no matter how many valid
merges of other regions follow the `(a, b)` step. -/
theorem c7_getRoot_merged (pre post : List (Nat × Nat)) (a b : Nat)
    (hv : validMerges [] (pre ++ (a, b) :: post) = true) :
    (getRoot (ufApply [] (pre ++ (a, b) :: post)) b).1
      = (getRoot ((getRoot (ufApply [] (pre ++ (a, b) :: post)) b).2) a).1 := by
  have hw0 : wfM ([] : RootMap) := by intro p hp; exact absurd hp (by simp)
  obtain ⟨hvpre, hvrest⟩ := (uf_valid_append [] pre ((a, b) :: post)).mp hv
  simp only [validMerges, Bool.and_eq_true] at hvrest
  obtain ⟨⟨⟨ha, hb⟩, hab⟩, hvpost⟩ := hvrest
  have ha' := Option.isNone_iff_eq_none.mp ha
  have hb' := Option.isNone_iff_eq_none.mp hb
  have hab' : a ≠ b := by simpa using hab
  have hw0' : wfM (ufApply [] pre) := uf_wfM_apply [] pre hvpre hw0
  have hw1 : wfM (ufLink (ufApply [] pre) a b) :=
    uf_wfM_link (ufApply [] pre) a b hb' ha' hab' hw0'
  have hra : rootD (ufLink (ufApply [] pre) a b) a = some a := by
    apply uf_rootD_of_root
    rw [uf_lookupM_link, if_neg (fun hc => hab' hc.symm)]
    exact ha'
  have hrb : rootD (ufLink (ufApply [] pre) a b) b = some a := by
    have hb0 : rootD (ufApply [] pre) b = some b :=
      uf_rootD_of_root (ufApply [] pre) b hb'
    have := uf_rootD_link (ufApply [] pre) a b hb' ha' hab' b b hb0
    simpa using this
  have happly : ufApply [] (pre ++ (a, b) :: post)
      = ufApply (ufLink (ufApply [] pre) a b) post := by
    rw [uf_ufApply_append pre ((a, b) :: post) []]
    rfl
  obtain ⟨r, hrb2, hra2⟩ :=
    uf_eq_apply b a post (ufLink (ufApply [] pre) a b) hvpost hw1 a hrb hra
  have hwM : wfM (ufApply (ufLink (ufApply [] pre) a b) post) :=
    uf_wfM_apply (ufLink (ufApply [] pre) a b) post hvpost hw1
  rw [happly]
  obtain ⟨⟨r1, hr1, hfst1⟩, hpres, hwM2, _, _⟩ :=
    uf_getRoot_spec (ufApply (ufLink (ufApply [] pre) a b) post) b hwM
  have hr1r : r1 = r := by
    rw [hr1] at hrb2
    exact Option.some_injective _ hrb2
  obtain ⟨⟨r2, hr2, hfst2⟩, _, _, _, _⟩ :=
    uf_getRoot_spec
      ((getRoot (ufApply (ufLink (ufApply [] pre) a b) post) b).2) a hwM2
  have hr2r : r2 = r := by
    rw [hpres a, hra2] at hr2
    exact Option.some_injective _ hr2.symm
  rw [hfst1, hfst2, hr1r, hr2r]

/-- Witness for C7: absorb `2` into `1`, then `3` into `1`; `getRoot 2` and
`getRoot 1` agree afterwards. -/
theorem c7_getRoot_merged_witness :
    (getRoot (ufApply [] ([] ++ (1, 2) :: [(1, 3)])) 2).1
      = (getRoot ((getRoot (ufApply [] ([] ++ (1, 2) :: [(1, 3)])) 2).2) 1).1 :=
  c7_getRoot_merged [] [(1, 3)] 1 2 (by decide)

/-- Embeds `extractSegmentation`: replace every element of the volume by the
root of its merge tree, threading the path-compressed map through the
calls exactly as the in-place loop does. -/
def extractSegmentation : List Nat → RootMap → List Nat × RootMap
  | [], m => ([], m)
  | v :: rest, m =>
      let rm := getRoot m v
      let res := extractSegmentation rest rm.2
      (rm.1 :: res.1, res.2)

theorem uf_getRoot_of_root (m : RootMap) (x : Nat) (h : lookupM m x = none) :
    getRoot m x = (x, m) := by
  simp only [getRoot, h]

theorem uf_extract_roots (vol : List Nat) :
    ∀ (m : RootMap), wfM m →
      wfM (extractSegmentation vol m).2 ∧
        (∀ y, lookupM ((extractSegmentation vol m).2) y = none ↔
          lookupM m y = none) ∧
        ∀ r ∈ (extractSegmentation vol m).1,
          lookupM ((extractSegmentation vol m).2) r = none := by
  induction vol with
  | nil =>
      intro m hw
      exact ⟨hw, fun _ => Iff.rfl,
        fun r hr => absurd hr (by simp [extractSegmentation])⟩
  | cons v rest ih =>
      intro m hw
      obtain ⟨⟨r, hr, hfst⟩, _, hw2, _, hdom2⟩ := uf_getRoot_spec m v hw
      have hroot : lookupM ((getRoot m v).2) r = none :=
        (hdom2 r).mpr (uf_rootD_root m v r hr)
      obtain ⟨ihw, ihdom, ihroots⟩ := ih ((getRoot m v).2) hw2
      refine ⟨ihw, ?_, ?_⟩
      · intro y
        simp only [extractSegmentation]
        rw [ihdom y, hdom2 y]
      · intro x hx
        simp only [extractSegmentation] at hx ⊢
        rcases List.mem_cons.mp hx with hx1 | hx2
        · rw [ihdom x, hx1, hfst]
          exact hroot
        · exact ihroots x hx2

theorem uf_extract_fixed (m : RootMap) :
    ∀ (vol : List Nat), (∀ v ∈ vol, lookupM m v = none) →
      extractSegmentation vol m = (vol, m)
  | [], _ => rfl
  | v :: rest, hall => by
      have hv : lookupM m v = none := hall v (by simp)
      simp only [extractSegmentation, uf_getRoot_of_root m v hv]
      rw [uf_extract_fixed m rest (fun x hx => hall x (by simp [hx]))]

/-- C8, confirmed.  `extractSegmentation` is idempotent: on any well-formed
union-find map, applying it a second time to the already-flattened volume
(and the compressed map produced by the first pass) returns exactly the
same volume — every first-pass output is a root, and `getRoot` of a root
changes nothing. -/
theorem c8_extract_idempotent (vol : List Nat) (m : RootMap) (hw : wfM m) :
    (extractSegmentation (extractSegmentation vol m).1
        (extractSegmentation vol m).2).1
      = (extractSegmentation vol m).1 := by
  obtain ⟨_, _, hroots⟩ := uf_extract_roots vol m hw
  rw [uf_extract_fixed ((extractSegmentation vol m).2)
    ((extractSegmentation vol m).1) hroots]

/-- Witness for C8: a three-node chain `3 → 2 → 1` and a volume touching
all of them. -/
theorem c8_extract_idempotent_witness :
    (extractSegmentation
        (extractSegmentation [1, 2, 3, 7] [(3, 2), (2, 1)]).1
        (extractSegmentation [1, 2, 3, 7] [(3, 2), (2, 1)]).2).1
      = (extractSegmentation [1, 2, 3, 7] [(3, 2), (2, 1)]).1 :=
  c8_extract_idempotent [1, 2, 3, 7] [(3, 2), (2, 1)] (by unfold wfM; decide)

end UF


namespace Engine

/-- Modelled from the spec: `RegionGraph.hpp` is not among the sources.
Per the spec's required capabilities, the region graph stores edges with
dense stable integer ids, and supports endpoint lookup, incident-edge
enumeration, opposite-endpoint lookup, edge lookup between two nodes with
a `NoEdge` sentinel, edge relocation, and edge removal.  Edges are
endpoint pairs indexed by id; removal is a soft flag. -/
structure RegionGraph where
  edges : List (Nat × Nat)
  removedE : Nat → Bool

/-- The number of edges (`edges().size()`). -/
def numEdges (g : RegionGraph) : Nat := g.edges.length

/-- The `u` endpoint of edge `e`. -/
def endpointU (g : RegionGraph) (e : Nat) : Nat := (g.edges.getD e (0, 0)).1

/-- The `v` endpoint of edge `e`. -/
def endpointV (g : RegionGraph) (e : Nat) : Nat := (g.edges.getD e (0, 0)).2

/-- Modelled from the spec: incident-edge enumeration (ascending id). -/
def incEdges (g : RegionGraph) (n : Nat) : List Nat :=
  (List.range g.edges.length).filter
    (fun e => !g.removedE e && (endpointU g e = n || endpointV g e = n))

/-- Modelled from the spec: the opposite endpoint of `e` relative to `n`. -/
def getOpposite (g : RegionGraph) (n e : Nat) : Nat :=
  if endpointU g e = n then endpointV g e else endpointU g e

/-- Modelled from the spec: the edge between `a` and `b`; `none` is the
`NoEdge` sentinel. -/
def findEdge (g : RegionGraph) (a b : Nat) : Option Nat :=
  (List.range g.edges.length).find?
    (fun e => !g.removedE e &&
      ((endpointU g e = a && endpointV g e = b) ||
        (endpointU g e = b && endpointV g e = a)))

/-- Modelled from the spec: relocate edge `e` to connect `a` and `n`. -/
def moveEdge (g : RegionGraph) (e a n : Nat) : RegionGraph :=
  { g with edges := g.edges.set e (a, n) }

/-- Modelled from the spec: remove edge `e` (soft flag). -/
def removeEdge (g : RegionGraph) (e : Nat) : RegionGraph :=
  { g with removedE := fun x => if x = e then true else g.removedE x }

/-- An edge-scoring capability — the engine is templated over one: a score
query for an edge id plus node-merge and edge-merge notifications, all
threading a provider state `σ`. -/
structure ScoringFn (σ : Type) where
  score : σ → Nat → ℚ
  notifyNodeMerge : σ → Nat → Nat → σ
  notifyEdgeMerge : σ → Nat → Nat → σ

/-- The mutable members of `IterativeRegionMerging` except `_mergedUntil`:
the region graph, the `_edgeScores`, `_stale` and `_deleted` maps, the
content of `_edgeQueue`, the `_rootPaths` union-find forest, the scoring
capability state, and a flag recording that every
`assert(newScore >= score)` at the rescoring site has held so far. -/
structure Core (σ : Type) where
  graph : RegionGraph
  scores : Nat → ℚ
  stale : Nat → Bool
  deleted : Nat → Bool
  queue : List Nat
  rootPaths : UF.RootMap
  fnState : σ
  assertOk : Bool

/-- The full engine state: the core plus `_mergedUntil`. -/
structure EngineState (σ : Type) where
  core : Core σ
  mergedUntil : ℚ

/-- Pointwise update of a boolean edge map. -/
def updB (f : Nat → Bool) (e : Nat) (v : Bool) : Nat → Bool :=
  fun x => if x = e then v else f x

/-- Pointwise update of the score map. -/
def updQ (f : Nat → ℚ) (e : Nat) (v : ℚ) : Nat → ℚ :=
  fun x => if x = e then v else f x

/-- Embeds `EdgeCompare::operator()`: the strict weak order of the priority
queue; on equal scores the larger id orders first, so the queue pops the
smaller id. -/
def edgeCompare (scores : Nat → ℚ) (a b : Nat) : Bool :=
  if scores a = scores b then decide (a > b) else decide (scores a > scores b)

/-- `std::priority_queue::top()`: the maximum of the queue content under
`EdgeCompare`. -/
def pqTop (scores : Nat → ℚ) : List Nat → Option Nat
  | [] => none
  | h :: t =>
      some (t.foldl (fun m x => if edgeCompare scores m x then x else m) h)

/-- Embeds `scoreEdge`: query the scoring function, cache the score, push
the edge on the queue; returns the new score along with the state. -/
def scoreEdge (fn : ScoringFn σ) (e : Nat) (c : Core σ) : ℚ × Core σ :=
  let sc := fn.score c.fnState e
  (sc, { c with scores := updQ c.scores e sc, queue := e :: c.queue })

/-- The seed phase of `mergeUntil`: score every edge once. -/
def seedScores (fn : ScoringFn σ) (c : Core σ) : Core σ :=
  (List.range (numEdges c.graph)).foldl (fun c e => (scoreEdge fn e c).2) c

/-- Embeds the body of the neighbor loop of `mergeRegions` for one incident
edge `ne` of the absorbed region `b` (`a` the survivor, `e` the contracted
edge): relocate exclusive neighbors, collapse shared ones keeping the
cheaper edge (ties keep `b`'s edge `ne`). -/
def processNeighbor (fn : ScoringFn σ) (a b e : Nat) (c : Core σ) (ne : Nat) :
    Core σ :=
  if ne = e then c
  else
    let neighbor := getOpposite c.graph b ne
    match findEdge c.graph a neighbor with
    | none =>
        { c with graph := moveEdge c.graph ne a neighbor,
                 stale := updB c.stale ne true }
    | some aNe =>
        if c.scores ne > c.scores aNe then
          { c with fnState := fn.notifyEdgeMerge c.fnState ne aNe,
                   deleted := updB c.deleted ne true }
        else
          { c with fnState := fn.notifyEdgeMerge c.fnState aNe ne,
                   graph := moveEdge (removeEdge c.graph aNe) ne a neighbor,
                   stale := updB c.stale ne true,
                   deleted := updB c.deleted aNe true }

/-- Embeds `mergeRegions(e)`: notify the node merge, link the union-find
(`_rootPaths[b] = a`), mark `a`'s incident edges stale, then run the
neighbor loop over `b`'s incident edges. -/
def mergeRegions (fn : ScoringFn σ) (e : Nat) (c : Core σ) : Core σ :=
  let a := endpointU c.graph e
  let b := endpointV c.graph e
  let c1 := { c with fnState := fn.notifyNodeMerge c.fnState b a }
  let c2 := { c1 with rootPaths := UF.ufLink c1.rootPaths a b }
  let c3 := (incEdges c2.graph a).foldl
    (fun c ne => { c with stale := updB c.stale ne true }) c2
  (incEdges c3.graph b).foldl (processNeighbor fn a b e) c3

/-- One iteration of the `while` loop of `mergeUntil`, after the top edge
`next` has been read and found below the threshold: pop it, then skip it if
deleted, rescore and un-stale it if stale (recording the
`assert(newScore >= score)` outcome in `assertOk`), else merge. -/
def mergeStep (fn : ScoringFn σ) (next : Nat) (c : Core σ) : Core σ :=
  let c1 := { c with queue := c.queue.erase next }
  if c1.deleted next then c1
  else if c1.stale next then
    let sc := scoreEdge fn next c1
    let newScore := sc.1
    let c2 := sc.2
    { c2 with
      stale := updB c2.stale next false,
      assertOk := c2.assertOk && decide (c.scores next ≤ newScore) }
  else mergeRegions fn next c1

/-- Embeds the `while` loop of `mergeUntil` (with fuel; `none` when the
fuel runs out before the loop exits).  The loop body never reads
`_mergedUntil`: the threshold appears only in the break test. -/
def mergeLoop (fn : ScoringFn σ) (threshold : ℚ) :
    Nat → Core σ → Option (Core σ)
  | 0, _ => none
  | fuel + 1, c =>
      match pqTop c.scores c.queue with
      | none => some c
      | some next =>
          if c.scores next ≥ threshold then some c
          else mergeLoop fn threshold fuel (mergeStep fn next c)

/-- Embeds `mergeUntil`: a no-op at or below `_mergedUntil`, the seed phase
on the very first call, the merge loop, then `_mergedUntil = threshold`. -/
def mergeUntil (fn : ScoringFn σ) (threshold : ℚ) (fuel : Nat)
    (s : EngineState σ) : Option (EngineState σ) :=
  if threshold ≤ s.mergedUntil then some s
  else
    (mergeLoop fn threshold fuel
      (if s.mergedUntil = 0 then seedScores fn s.core else s.core)).map
      (fun c' => ⟨c', threshold⟩)

theorem ec_irrefl (s : Nat → ℚ) (a : Nat) : edgeCompare s a a = false := by
  unfold edgeCompare
  simp

theorem ec_true_iff (s : Nat → ℚ) (a b : Nat) :
    edgeCompare s a b = true ↔ ((s a = s b ∧ b < a) ∨ s b < s a) := by
  unfold edgeCompare
  split_ifs with h
  · simp only [decide_eq_true_eq, gt_iff_lt]
    constructor
    · intro hba
      exact Or.inl ⟨h, hba⟩
    · rintro (⟨_, hba⟩ | hlt)
      · exact hba
      · rw [h] at hlt
        exact absurd hlt (lt_irrefl _)
  · simp only [decide_eq_true_eq, gt_iff_lt]
    constructor
    · intro hlt
      exact Or.inr hlt
    · rintro (⟨heq, _⟩ | hlt)
      · exact absurd heq h
      · exact hlt

theorem ec_false_iff (s : Nat → ℚ) (a b : Nat) :
    edgeCompare s a b = false ↔ ((s a = s b ∧ a ≤ b) ∨ s a < s b) := by
  rw [← Bool.not_eq_true, ec_true_iff]
  constructor
  · intro h
    push_neg at h
    obtain ⟨h1, h2⟩ := h
    rcases eq_or_lt_of_le h2 with heq | hlt
    · exact Or.inl ⟨heq, h1 heq⟩
    · exact Or.inr hlt
  · intro h
    push_neg
    rcases h with ⟨heq, hab⟩ | hlt
    · exact ⟨fun _ => hab, le_of_eq heq⟩
    · exact ⟨fun hc => absurd hc (ne_of_lt hlt), le_of_lt hlt⟩

theorem ec_trans (s : Nat → ℚ) (a b c : Nat) (h1 : edgeCompare s a b = true)
    (h2 : edgeCompare s b c = true) : edgeCompare s a c = true := by
  rw [ec_true_iff] at h1 h2 ⊢
  rcases h1 with ⟨e1, l1⟩ | l1 <;> rcases h2 with ⟨e2, l2⟩ | l2
  · exact Or.inl ⟨e1.trans e2, by omega⟩
  · refine Or.inr ?_
    rw [e1]
    exact l2
  · refine Or.inr ?_
    rw [← e2]
    exact l1
  · exact Or.inr (lt_trans l2 l1)

theorem ec_trans2 (s : Nat → ℚ) (r x m : Nat) (h1 : edgeCompare s r x = true)
    (h2 : edgeCompare s m x = false) : edgeCompare s r m = true := by
  rw [ec_true_iff] at h1 ⊢
  rw [ec_false_iff] at h2
  rcases h1 with ⟨e1, l1⟩ | l1 <;> rcases h2 with ⟨e2, l2⟩ | l2
  · exact Or.inl ⟨e1.trans e2.symm, by omega⟩
  · refine Or.inr ?_
    rw [e1]
    exact l2
  · refine Or.inr ?_
    rw [e2]
    exact l1
  · exact Or.inr (lt_trans l2 l1)

theorem pq_foldl_spec (s : Nat → ℚ) :
    ∀ (t : List Nat) (m : Nat),
      (t.foldl (fun acc x => if edgeCompare s acc x then x else acc) m = m ∨
        t.foldl (fun acc x => if edgeCompare s acc x then x else acc) m ∈ t) ∧
      edgeCompare s
        (t.foldl (fun acc x => if edgeCompare s acc x then x else acc) m) m
        = false ∧
      ∀ y ∈ t,
        edgeCompare s
          (t.foldl (fun acc x => if edgeCompare s acc x then x else acc) m) y
          = false := by
  intro t
  induction t with
  | nil =>
      intro m
      exact ⟨Or.inl rfl, ec_irrefl s m, fun y hy => absurd hy (by simp)⟩
  | cons x t ih =>
      intro m
      simp only [List.foldl_cons]
      obtain ⟨hmem, hm', hall⟩ := ih (if edgeCompare s m x then x else m)
      by_cases hmx : edgeCompare s m x = true
      · rw [if_pos hmx] at hmem hm' hall ⊢
        refine ⟨?_, ?_, ?_⟩
        · rcases hmem with h | h
          · refine Or.inr ?_
            rw [h]
            exact List.mem_cons_self x t
          · exact Or.inr (List.mem_cons_of_mem x h)
        · by_cases hrm : edgeCompare s
              (t.foldl (fun acc y => if edgeCompare s acc y then y else acc) x) m
              = true
          · exact absurd (ec_trans s _ m x hrm hmx) (by rw [hm']; simp)
          · simpa using hrm
        · intro y hy
          rcases List.mem_cons.mp hy with hyx | hyt
          · rw [hyx]
            exact hm'
          · exact hall y hyt
      · rw [if_neg hmx] at hmem hm' hall ⊢
        have hmxf : edgeCompare s m x = false := by simpa using hmx
        refine ⟨?_, hm', ?_⟩
        · rcases hmem with h | h
          · exact Or.inl h
          · exact Or.inr (List.mem_cons_of_mem x h)
        · intro y hy
          rcases List.mem_cons.mp hy with hyx | hyt
          · rw [hyx]
            by_cases hrx : edgeCompare s
                (t.foldl (fun acc z => if edgeCompare s acc z then z else acc) m) x
                = true
            · exact absurd (ec_trans2 s _ x m hrx hmxf) (by rw [hm']; simp)
            · simpa using hrx
          · exact hall y hyt

theorem pqTop_spec (s : Nat → ℚ) (q : List Nat) (m : Nat)
    (h : pqTop s q = some m) :
    m ∈ q ∧ ∀ x ∈ q, edgeCompare s m x = false := by
  cases q with
  | nil => exact absurd h (by simp [pqTop])
  | cons h0 t =>
      unfold pqTop at h
      have hm := Option.some_injective _ h
      obtain ⟨hmem, hm', hall⟩ := pq_foldl_spec s t h0
      rw [hm] at hmem hm' hall
      refine ⟨?_, ?_⟩
      · rcases hmem with h' | h'
        · rw [h']
          exact List.mem_cons_self h0 t
        · exact List.mem_cons_of_mem h0 h'
      · intro x hx
        rcases List.mem_cons.mp hx with hx0 | hxt
        · rw [hx0]
          exact hm'
        · exact hall x hxt

/-- C10, confirmed.  Whenever two queued edges have equal cached scores,
the smaller edge id is popped first: the queue top is never the
larger-id edge of an equal-score pair, so the pop order of equal-score
edges (hence the merge order) is deterministic. -/
theorem c10_tie_pops_smaller_id (scores : Nat → ℚ) (q : List Nat)
    (a b : Nat) (ha : a ∈ q) (hb : b ∈ q) (heq : scores a = scores b)
    (hab : a < b) : pqTop scores q ≠ some b := by
  intro htop
  obtain ⟨_, hall⟩ := pqTop_spec scores q b htop
  have := hall a ha
  unfold edgeCompare at this
  rw [if_pos heq.symm] at this
  simp at this
  omega

/-- Witness for C10: two equal-score edges `3` and `5`; the top is not `5`. -/
theorem c10_tie_pops_smaller_id_witness :
    pqTop (fun _ => (1:ℚ)) [5, 3] ≠ some 5 :=
  c10_tie_pops_smaller_id (fun _ => (1:ℚ)) [5, 3] 3 5 (by decide) (by decide)
    rfl (by decide)

/-- The trivial scoring capability used in concrete counterexamples. -/
def fnU : ScoringFn Unit :=
  ⟨fun _ _ => 0, fun s _ _ => s, fun s _ _ => s⟩

/-- The engine core for the C1 counterexample: regions `1, 2, 3`; edge `0`
joins `1`–`2` (score `0`, about to be contracted), edge `1` joins `1`–`3`
(region `a`'s pre-existing edge), edge `2` joins `2`–`3` (region `b`'s
edge); edges `1` and `2` have equal cached scores `1/2`. -/
def c1Init : Core Unit :=
  { graph := { edges := [(1, 2), (1, 3), (2, 3)], removedE := fun _ => false },
    scores := fun e => if e = 0 then 0 else mkRat 1 2,
    stale := fun _ => false,
    deleted := fun _ => false,
    queue := [],
    rootPaths := [],
    fnState := (),
    assertOk := true }

/-- C1, counterexample.  Contracting edge `0` makes `3` a shared neighbor
of `a = 1` and `b = 2` with equal cached scores on the two parallel edges;
the claim says the tie keeps `a`'s pre-existing edge `1`, but the code
takes the `else` branch of `scores[neighborEdge] > scores[aNeighborEdge]`,
soft-deleting `a`'s edge `1` and keeping `b`'s edge `2`. -/
theorem c1_tie_deletes_a_edge :
    c1Init.scores 1 = c1Init.scores 2 ∧
      findEdge c1Init.graph 1 3 = some 1 ∧
      endpointU c1Init.graph 0 = 1 ∧ endpointV c1Init.graph 0 = 2 ∧
      (mergeRegions fnU 0 c1Init).deleted 1 = true ∧
      (mergeRegions fnU 0 c1Init).deleted 2 = false := by
  decide

/-- C1, amended.  In the shared-neighbor collapse of `mergeRegions`, the
edge with the strictly cheaper cached score survives; when the two cached
scores are equal, `b`'s edge `ne` survives and `a`'s pre-existing edge is
the one soft-deleted (its statistics merged into the survivor) — not the
other way around as claimed. -/
theorem c1_collapse_cheaper_survives (σ : Type) (fn : ScoringFn σ)
    (a b e ne aNe : Nat) (c : Core σ) (hne : ne ≠ e)
    (hfind : findEdge c.graph a (getOpposite c.graph b ne) = some aNe)
    (hd1 : c.deleted ne = false) (hd2 : c.deleted aNe = false)
    (hnae : aNe ≠ ne) :
    (c.scores ne > c.scores aNe →
      (processNeighbor fn a b e c ne).deleted ne = true ∧
      (processNeighbor fn a b e c ne).deleted aNe = false) ∧
    (c.scores ne ≤ c.scores aNe →
      (processNeighbor fn a b e c ne).deleted aNe = true ∧
      (processNeighbor fn a b e c ne).deleted ne = false) := by
  constructor
  · intro hgt
    unfold processNeighbor
    rw [if_neg hne]
    simp only [hfind]
    rw [if_pos hgt]
    constructor
    · show updB c.deleted ne true ne = true
      unfold updB
      simp
    · show updB c.deleted ne true aNe = false
      unfold updB
      rw [if_neg hnae]
      exact hd2
  · intro hle
    unfold processNeighbor
    rw [if_neg hne]
    simp only [hfind]
    rw [if_neg (not_lt.mpr hle)]
    constructor
    · show updB c.deleted aNe true aNe = true
      unfold updB
      simp
    · show updB c.deleted aNe true ne = false
      unfold updB
      rw [if_neg (fun hc => hnae hc.symm)]
      exact hd1

/-- Witness for C1's amended theorem at the counterexample state (equal
scores, so the `≤` clause applies: `a`'s edge `1` is deleted, `b`'s edge
`2` survives). -/
theorem c1_collapse_cheaper_survives_witness :
    (c1Init.scores 2 > c1Init.scores 1 →
      (processNeighbor fnU 1 2 0 c1Init 2).deleted 2 = true ∧
      (processNeighbor fnU 1 2 0 c1Init 2).deleted 1 = false) ∧
    (c1Init.scores 2 ≤ c1Init.scores 1 →
      (processNeighbor fnU 1 2 0 c1Init 2).deleted 1 = true ∧
      (processNeighbor fnU 1 2 0 c1Init 2).deleted 2 = false) :=
  c1_collapse_cheaper_survives Unit fnU 1 2 0 2 1 c1Init (by decide)
    (by decide) rfl rfl (by decide)

/-- Fuel monotonicity of the merge loop: a run that exits within `f`
iterations exits with the same state given any larger fuel bound. -/
theorem loop_mono (σ : Type) (fn : ScoringFn σ) (t : ℚ) :
    ∀ (f : Nat) (c c' : Core σ), mergeLoop fn t f c = some c' →
      ∀ k, mergeLoop fn t (f + k) c = some c'
  | 0, c, c', h, k => absurd h (by simp [mergeLoop])
  | f + 1, c, c', h, k => by
      rw [Nat.add_right_comm]
      cases htop : pqTop c.scores c.queue with
      | none =>
          simp only [mergeLoop, htop] at h ⊢
          exact h
      | some next =>
          simp only [mergeLoop, htop] at h ⊢
          by_cases hth : c.scores next ≥ t
          · rw [if_pos hth] at h ⊢
            exact h
          · rw [if_neg hth] at h ⊢
            exact loop_mono σ fn t f (mergeStep fn next c) c' h k

/-- Loop composition: running the merge loop to completion at threshold
`t1 ≤ t2` and then to completion at `t2` reaches the same core as one run
at `t2`, because the loop body is threshold-independent and every edge the
`t1` run leaves in the queue is handled identically by the `t2` run. -/
theorem loop_compose (σ : Type) (fn : ScoringFn σ) (t1 t2 : ℚ)
    (hle : t1 ≤ t2) :
    ∀ (f g : Nat) (c c1 c2 : Core σ),
      mergeLoop fn t1 f c = some c1 → mergeLoop fn t2 g c1 = some c2 →
      mergeLoop fn t2 (f + g) c = some c2
  | 0, g, c, c1, c2, h1, _ => absurd h1 (by simp [mergeLoop])
  | f + 1, g, c, c1, c2, h1, h2 => by
      rw [Nat.add_right_comm]
      cases htop : pqTop c.scores c.queue with
      | none =>
          simp only [mergeLoop, htop] at h1 ⊢
          have hc : c = c1 := Option.some_injective _ h1
          rw [← hc] at h2
          cases g with
          | zero => exact absurd h2 (by simp [mergeLoop])
          | succ g' =>
              simp only [mergeLoop, htop] at h2
              exact h2
      | some next =>
          simp only [mergeLoop, htop] at h1 ⊢
          by_cases hth1 : c.scores next ≥ t1
          · rw [if_pos hth1] at h1
            have hc : c = c1 := Option.some_injective _ h1
            rw [← hc] at h2
            by_cases hth2 : c.scores next ≥ t2
            · rw [if_pos hth2]
              cases g with
              | zero => exact absurd h2 (by simp [mergeLoop])
              | succ g' =>
                  simp only [mergeLoop, htop] at h2
                  rw [if_pos hth2] at h2
                  exact h2
            · rw [if_neg hth2]
              cases g with
              | zero => exact absurd h2 (by simp [mergeLoop])
              | succ g' =>
                  simp only [mergeLoop, htop] at h2
                  rw [if_neg hth2] at h2
                  have h3 := loop_mono σ fn t2 g' (mergeStep fn next c) c2 h2
                    (f + 1)
                  rw [show f + (g' + 1) = g' + (f + 1) from by omega]
                  exact h3
          · rw [if_neg hth1] at h1
            have hth2 : ¬ c.scores next ≥ t2 :=
              fun hc => hth1 (le_trans hle hc)
            rw [if_neg hth2]
            exact loop_compose σ fn t1 t2 hle f g (mergeStep fn next c) c1 c2
              h1 h2

/-- Fuel monotonicity lifted to `mergeUntil`. -/
theorem mergeUntil_mono (σ : Type) (fn : ScoringFn σ) (t : ℚ) (f : Nat)
    (s s' : EngineState σ) (h : mergeUntil fn t f s = some s') (k : Nat) :
    mergeUntil fn t (f + k) s = some s' := by
  unfold mergeUntil at h ⊢
  by_cases hth : t ≤ s.mergedUntil
  · rw [if_pos hth] at h ⊢
    exact h
  · rw [if_neg hth] at h ⊢
    cases hml : mergeLoop fn t f
        (if s.mergedUntil = 0 then seedScores fn s.core else s.core) with
    | none =>
        rw [hml] at h
        exact absurd h (by simp)
    | some c' =>
        rw [hml, Option.map_some'] at h
        rw [loop_mono σ fn t f _ c' hml k, Option.map_some']
        exact h

/-- C2, confirmed.  From a freshly constructed engine (`_mergedUntil = 0`),
calling `mergeUntil` at threshold `t1` and then at `t2 > t1` leaves the
engine — union-find forest, graph, score/stale/deleted maps, queue,
scoring-function state and `_mergedUntil` marker, i.e. the whole
`EngineState` — exactly as a single `mergeUntil` call at `t2` does.  Fuel
counts loop iterations (the C++ loop is unbounded): whenever both calls of
the pair terminate within `f` and `g` iterations, the single call
terminates within `f + g` and produces the identical state. -/
theorem c2_increasing_thresholds_compose (σ : Type) (fn : ScoringFn σ)
    (t1 t2 : ℚ) (f g : Nat) (s s1 s2 : EngineState σ)
    (h0 : s.mergedUntil = 0) (hlt : t1 < t2)
    (h1 : mergeUntil fn t1 f s = some s1)
    (h2 : mergeUntil fn t2 g s1 = some s2) :
    mergeUntil fn t2 (f + g) s = some s2 := by
  by_cases ht1 : t1 ≤ 0
  · have hskip : mergeUntil fn t1 f s = some s := by
      unfold mergeUntil
      rw [if_pos (by rw [h0]; exact ht1)]
    rw [hskip] at h1
    have hs : s = s1 := Option.some_injective _ h1
    rw [← hs] at h2
    rw [Nat.add_comm]
    exact mergeUntil_mono σ fn t2 g s s2 h2 f
  · unfold mergeUntil at h1
    rw [if_neg (by rw [h0]; exact ht1), if_pos h0] at h1
    cases hml1 : mergeLoop fn t1 f (seedScores fn s.core) with
    | none =>
        rw [hml1] at h1
        exact absurd h1 (by simp)
    | some cA =>
        rw [hml1, Option.map_some'] at h1
        have hs1 : s1 = ⟨cA, t1⟩ := (Option.some_injective _ h1).symm
        unfold mergeUntil at h2
        rw [hs1] at h2
        rw [show (⟨cA, t1⟩ : EngineState σ).mergedUntil = t1 from rfl] at h2
        rw [if_neg (not_le.mpr hlt)] at h2
        rw [if_neg (fun hc : t1 = 0 => ht1 (le_of_eq hc))] at h2
        rw [show (⟨cA, t1⟩ : EngineState σ).core = cA from rfl] at h2
        cases hml2 : mergeLoop fn t2 g cA with
        | none =>
            rw [hml2] at h2
            exact absurd h2 (by simp)
        | some cB =>
            rw [hml2, Option.map_some'] at h2
            unfold mergeUntil
            rw [h0]
            rw [if_neg (fun hc : t2 ≤ 0 =>
              ht1 (le_trans (le_of_lt hlt) hc))]
            rw [if_pos rfl]
            rw [loop_compose σ fn t1 t2 (le_of_lt hlt) f g
              (seedScores fn s.core) cA cB hml1 hml2]
            rw [Option.map_some']
            exact h2

/-- A concrete scoring capability for the C2 witness: every edge always
costs `1/4`. -/
def fnC : ScoringFn Unit :=
  ⟨fun _ _ => mkRat 1 4, fun s _ _ => s, fun s _ _ => s⟩

/-- A freshly constructed engine on a two-region graph with one edge. -/
def c2Init : EngineState Unit :=
  ⟨{ graph := { edges := [(1, 2)], removedE := fun _ => false },
     scores := fun _ => 0,
     stale := fun _ => false,
     deleted := fun _ => false,
     queue := [],
     rootPaths := [],
     fnState := (),
     assertOk := true }, 0⟩

/-- The engine state after merging until `1/2`. -/
def c2s1 : EngineState Unit :=
  (mergeUntil fnC (mkRat 1 2) 3 c2Init).getD c2Init

/-- The engine state after then merging until `1`. -/
def c2s2 : EngineState Unit :=
  (mergeUntil fnC 1 2 c2s1).getD c2s1

/-- Witness for C2 on the concrete engine: merging until `1/2` and then
until `1` gives the same state as merging until `1` at once. -/
theorem c2_increasing_thresholds_compose_witness :
    c2Init.mergedUntil = 0 ∧ (mkRat 1 2 : ℚ) < 1 ∧
    mergeUntil fnC (mkRat 1 2) 3 c2Init = some c2s1 ∧
    mergeUntil fnC 1 2 c2s1 = some c2s2 ∧
    mergeUntil fnC 1 5 c2Init = some c2s2 :=
  ⟨rfl, by decide, rfl, rfl,
    c2_increasing_thresholds_compose Unit fnC (mkRat 1 2) 1 3 2 c2Init c2s1
      c2s2 rfl (by decide) rfl rfl⟩

/-- The histogram-quantile provider as the engine's scoring capability:
the provider state is the `_histograms` edge map, scoring an edge is
`operator[]`, and `notifyEdgeMerge` is the provider's histogram merge.
Modelled from the spec: `StatisticsProvider.hpp` is missing from the
sources, and `HistogramQuantileProvider` declares no node-merge handler,
so `notifyNodeMerge` is a no-op on the histograms. -/
def hqFn (Q Bins : Nat) : ScoringFn (List HQ.Histogram) :=
  ⟨fun hs e => HQ.scoreQ Q Bins (HQ.histAt Bins hs e),
   fun hs _ _ => hs,
   fun hs f t => HQ.notifyEdgeMergeH Bins hs f t⟩

/-- The engine invariant behind C4: every histogram of the provider has
the fixed bin count, and every cached edge score lies at or below the
provider's current quantile score for that edge. -/
def hqInv (Q Bins : Nat) (c : Core (List HQ.Histogram)) : Prop :=
  (∀ e, (HQ.histAt Bins c.fnState e).length = Bins) ∧
  (∀ e, c.scores e ≤ HQ.scoreQ Q Bins (HQ.histAt Bins c.fnState e))

theorem hq_set_oob {α : Type} :
    ∀ (l : List α) (i : Nat) (a : α), l.length ≤ i → l.set i a = l
  | [], _, _, _ => rfl
  | _ :: _, 0, _, h => absurd h (by simp)
  | x :: xs, i + 1, a, h => by
      show x :: xs.set i a = x :: xs
      rw [hq_set_oob xs i a (by simpa using h)]

theorem hq_histAt_set (Bins : Nat) (hs : List HQ.Histogram) (i x : Nat)
    (v : HQ.Histogram) :
    HQ.histAt Bins (hs.set i v) x =
      if x = i ∧ i < hs.length then v else HQ.histAt Bins hs x := by
  unfold HQ.histAt
  by_cases hx : x = i
  · subst hx
    by_cases hlen : x < hs.length
    · rw [if_pos ⟨rfl, hlen⟩]
      exact BinQueue.bq_getD_set_self hs x v _ hlen
    · rw [if_neg (fun hc => hlen hc.2)]
      rw [hq_set_oob hs x v (by omega)]
  · rw [if_neg (fun hc => hx hc.1)]
    exact BinQueue.bq_getD_set_ne hs i x v _ (fun hc => hx hc.symm)

/-- The provider's `notifyEdgeMerge(f, t)` keeps every cached score below
the quantile score, provided the score cached at `t` is also below `f`'s
quantile score (which the merge-step branch conditions guarantee). -/
theorem hq_inv_notify (Q Bins : Nat) (hs : List HQ.Histogram) (f t : Nat)
    (s : Nat → ℚ)
    (hlen : ∀ e, (HQ.histAt Bins hs e).length = Bins)
    (hsc : ∀ e, s e ≤ HQ.scoreQ Q Bins (HQ.histAt Bins hs e))
    (hst : s t ≤ HQ.scoreQ Q Bins (HQ.histAt Bins hs f)) :
    (∀ e, (HQ.histAt Bins (HQ.notifyEdgeMergeH Bins hs f t) e).length =
      Bins) ∧
    (∀ e, s e ≤
      HQ.scoreQ Q Bins (HQ.histAt Bins (HQ.notifyEdgeMergeH Bins hs f t) e))
    := by
  constructor
  · intro x
    unfold HQ.notifyEdgeMergeH
    rw [hq_histAt_set, hq_histAt_set, List.length_set]
    split_ifs with h1 h2
    · simp [HQ.clearH]
    · rw [HQ.hq_len_addH _ _ ((hlen t).trans (hlen f).symm)]
      exact hlen t
    · exact hlen x
  · intro x
    unfold HQ.notifyEdgeMergeH
    rw [hq_histAt_set, hq_histAt_set, List.length_set]
    split_ifs with h1 h2
    · rw [HQ.hq_scoreQ_clear]
      rw [h1.1]
      exact le_trans (hsc f) (HQ.hq_scoreQ_le_max Q Bins _ (hlen f))
    · rw [h2.1]
      exact le_trans (le_min (hsc t) hst)
        (HQ.hq_scoreQ_merge Q Bins _ _ ((hlen t).trans (hlen f).symm))
    · exact hsc x

theorem hq_inv_scoreEdge (Q Bins : Nat) (e : Nat)
    (c : Core (List HQ.Histogram)) (h : hqInv Q Bins c) :
    hqInv Q Bins (scoreEdge (hqFn Q Bins) e c).2 ∧
      (scoreEdge (hqFn Q Bins) e c).2.assertOk = c.assertOk := by
  obtain ⟨hlen, hsc⟩ := h
  refine ⟨⟨hlen, ?_⟩, rfl⟩
  intro x
  show updQ c.scores e (HQ.scoreQ Q Bins (HQ.histAt Bins c.fnState e)) x ≤
    HQ.scoreQ Q Bins (HQ.histAt Bins c.fnState x)
  unfold updQ
  by_cases hx : x = e
  · subst hx
    rw [if_pos rfl]
  · rw [if_neg hx]
    exact hsc x

theorem hq_inv_seed_aux (Q Bins : Nat) :
    ∀ (l : List Nat) (c : Core (List HQ.Histogram)), hqInv Q Bins c →
      hqInv Q Bins
        (l.foldl (fun c e => (scoreEdge (hqFn Q Bins) e c).2) c) ∧
      (l.foldl (fun c e => (scoreEdge (hqFn Q Bins) e c).2) c).assertOk =
        c.assertOk
  | [], _, h => ⟨h, rfl⟩
  | e :: rest, c, h => by
      simp only [List.foldl_cons]
      obtain ⟨h1, h2⟩ := hq_inv_scoreEdge Q Bins e c h
      obtain ⟨h3, h4⟩ := hq_inv_seed_aux Q Bins rest _ h1
      exact ⟨h3, h4.trans h2⟩

theorem hq_inv_seed (Q Bins : Nat) (c : Core (List HQ.Histogram))
    (h : hqInv Q Bins c) :
    hqInv Q Bins (seedScores (hqFn Q Bins) c) ∧
      (seedScores (hqFn Q Bins) c).assertOk = c.assertOk := by
  unfold seedScores
  exact hq_inv_seed_aux Q Bins _ c h

theorem hq_inv_processNeighbor (Q Bins a b e ne : Nat)
    (c : Core (List HQ.Histogram)) (h : hqInv Q Bins c) :
    hqInv Q Bins (processNeighbor (hqFn Q Bins) a b e c ne) ∧
      (processNeighbor (hqFn Q Bins) a b e c ne).assertOk = c.assertOk := by
  obtain ⟨hlen, hsc⟩ := h
  unfold processNeighbor
  by_cases hne : ne = e
  · rw [if_pos hne]
    exact ⟨⟨hlen, hsc⟩, rfl⟩
  · rw [if_neg hne]
    cases hfind : findEdge c.graph a (getOpposite c.graph b ne) with
    | none =>
        simp only [hfind]
        exact ⟨⟨hlen, hsc⟩, trivial⟩
    | some aNe =>
        simp only [hfind]
        by_cases hgt : c.scores ne > c.scores aNe
        · rw [if_pos hgt]
          have hst : c.scores aNe ≤
              HQ.scoreQ Q Bins (HQ.histAt Bins c.fnState ne) :=
            le_trans (le_of_lt hgt) (hsc ne)
          obtain ⟨h1, h2⟩ :=
            hq_inv_notify Q Bins c.fnState ne aNe c.scores hlen hsc hst
          exact ⟨⟨h1, h2⟩, rfl⟩
        · rw [if_neg hgt]
          have hst : c.scores ne ≤
              HQ.scoreQ Q Bins (HQ.histAt Bins c.fnState aNe) :=
            le_trans (not_lt.mp hgt) (hsc aNe)
          obtain ⟨h1, h2⟩ :=
            hq_inv_notify Q Bins c.fnState aNe ne c.scores hlen hsc hst
          exact ⟨⟨h1, h2⟩, rfl⟩

theorem hq_inv_staleFold (Q Bins : Nat) :
    ∀ (l : List Nat) (c : Core (List HQ.Histogram)), hqInv Q Bins c →
      hqInv Q Bins
        (l.foldl (fun c ne => { c with stale := updB c.stale ne true }) c) ∧
      (l.foldl (fun c ne => { c with stale := updB c.stale ne true })
        c).assertOk = c.assertOk
  | [], _, h => ⟨h, rfl⟩
  | x :: rest, c, h => by
      simp only [List.foldl_cons]
      exact hq_inv_staleFold Q Bins rest _ h

theorem hq_inv_pnFold (Q Bins a b e : Nat) :
    ∀ (l : List Nat) (c : Core (List HQ.Histogram)), hqInv Q Bins c →
      hqInv Q Bins (l.foldl (processNeighbor (hqFn Q Bins) a b e) c) ∧
      (l.foldl (processNeighbor (hqFn Q Bins) a b e) c).assertOk =
        c.assertOk
  | [], _, h => ⟨h, rfl⟩
  | x :: rest, c, h => by
      simp only [List.foldl_cons]
      obtain ⟨h1, h2⟩ := hq_inv_processNeighbor Q Bins a b e x c h
      obtain ⟨h3, h4⟩ := hq_inv_pnFold Q Bins a b e rest _ h1
      exact ⟨h3, h4.trans h2⟩

theorem hq_inv_mergeRegions (Q Bins : Nat) (e : Nat)
    (c : Core (List HQ.Histogram)) (h : hqInv Q Bins c) :
    hqInv Q Bins (mergeRegions (hqFn Q Bins) e c) ∧
      (mergeRegions (hqFn Q Bins) e c).assertOk = c.assertOk := by
  obtain ⟨hs1, hs2⟩ := hq_inv_staleFold Q Bins
    (incEdges c.graph (endpointU c.graph e))
    { c with
      fnState := (hqFn Q Bins).notifyNodeMerge c.fnState
        (endpointV c.graph e) (endpointU c.graph e),
      rootPaths := UF.ufLink c.rootPaths
        (endpointU c.graph e) (endpointV c.graph e) } h
  obtain ⟨hp1, hp2⟩ := hq_inv_pnFold Q Bins
    (endpointU c.graph e) (endpointV c.graph e) e
    (incEdges (List.foldl
      (fun (c : Core (List HQ.Histogram)) ne =>
        { c with stale := updB c.stale ne true })
      { c with
        fnState := (hqFn Q Bins).notifyNodeMerge c.fnState
          (endpointV c.graph e) (endpointU c.graph e),
        rootPaths := UF.ufLink c.rootPaths
          (endpointU c.graph e) (endpointV c.graph e) }
      (incEdges c.graph (endpointU c.graph e))).graph
      (endpointV c.graph e))
    (List.foldl
      (fun (c : Core (List HQ.Histogram)) ne =>
        { c with stale := updB c.stale ne true })
      { c with
        fnState := (hqFn Q Bins).notifyNodeMerge c.fnState
          (endpointV c.graph e) (endpointU c.graph e),
        rootPaths := UF.ufLink c.rootPaths
          (endpointU c.graph e) (endpointV c.graph e) }
      (incEdges c.graph (endpointU c.graph e)))
    hs1
  exact ⟨hp1, hp2.trans hs2⟩

theorem hq_inv_mergeStep (Q Bins : Nat) (next : Nat)
    (c : Core (List HQ.Histogram)) (h : hqInv Q Bins c) :
    hqInv Q Bins (mergeStep (hqFn Q Bins) next c) ∧
      (mergeStep (hqFn Q Bins) next c).assertOk = c.assertOk := by
  simp only [mergeStep]
  by_cases hdel : c.deleted next = true
  · rw [if_pos hdel]
    exact ⟨h, rfl⟩
  · rw [if_neg hdel]
    by_cases hst : c.stale next = true
    · rw [if_pos hst]
      refine ⟨?_, ?_⟩
      · exact (hq_inv_scoreEdge Q Bins next
          { c with queue := c.queue.erase next } h).1
      · show (c.assertOk &&
          decide (c.scores next ≤
            HQ.scoreQ Q Bins (HQ.histAt Bins c.fnState next))) = c.assertOk
        rw [decide_eq_true (h.2 next), Bool.and_true]
    · rw [if_neg hst]
      exact hq_inv_mergeRegions Q Bins next
        { c with queue := c.queue.erase next } h

theorem hq_inv_mergeLoop (Q Bins : Nat) (t : ℚ) :
    ∀ (f : Nat) (c c' : Core (List HQ.Histogram)),
      mergeLoop (hqFn Q Bins) t f c = some c' → hqInv Q Bins c →
      hqInv Q Bins c' ∧ c'.assertOk = c.assertOk
  | 0, _, _, h, _ => absurd h (by simp [mergeLoop])
  | f + 1, c, c', h, hInv => by
      cases htop : pqTop c.scores c.queue with
      | none =>
          simp only [mergeLoop, htop] at h
          rw [← Option.some_injective _ h]
          exact ⟨hInv, rfl⟩
      | some next =>
          simp only [mergeLoop, htop] at h
          by_cases hth : c.scores next ≥ t
          · rw [if_pos hth] at h
            rw [← Option.some_injective _ h]
            exact ⟨hInv, rfl⟩
          · rw [if_neg hth] at h
            obtain ⟨h1, h2⟩ := hq_inv_mergeStep Q Bins next c hInv
            obtain ⟨h3, h4⟩ := hq_inv_mergeLoop Q Bins t f _ c' h h1
            exact ⟨h3, h4.trans h2⟩

/-- C4, confirmed.  With the histogram-quantile provider driving the
engine, the monotonicity assertion at the stale-rescoring site never
fails: from any state where every histogram has `Bins` bins and every
cached score is at most the provider's current quantile score (true in
particular of a fresh engine), every `mergeUntil` run leaves `assertOk`
true — each time a stale edge is popped and rescored, the recomputed
quantile score is at least the previously cached score, because merging
histograms can only move the quantile up to at least the smaller of the
two edges' quantiles, and the branch conditions merge into the edge whose
cached score is the larger one. -/
theorem c4_stale_rescore_never_decreases (Q Bins : Nat) (t : ℚ) (f : Nat)
    (s s' : EngineState (List HQ.Histogram))
    (hInv : hqInv Q Bins s.core) (hok : s.core.assertOk = true)
    (h : mergeUntil (hqFn Q Bins) t f s = some s') :
    s'.core.assertOk = true := by
  unfold mergeUntil at h
  by_cases hth : t ≤ s.mergedUntil
  · rw [if_pos hth] at h
    rw [← Option.some_injective _ h]
    exact hok
  · rw [if_neg hth] at h
    cases hml : mergeLoop (hqFn Q Bins) t f
        (if s.mergedUntil = 0 then seedScores (hqFn Q Bins) s.core
          else s.core) with
    | none =>
        rw [hml] at h
        exact absurd h (by simp)
    | some c' =>
        rw [hml, Option.map_some'] at h
        rw [(Option.some_injective _ h).symm]
        show c'.assertOk = true
        by_cases h0 : s.mergedUntil = 0
        · rw [if_pos h0] at hml
          obtain ⟨hI, hA⟩ := hq_inv_seed Q Bins s.core hInv
          obtain ⟨_, hA2⟩ := hq_inv_mergeLoop Q Bins t f _ c' hml hI
          rw [hA2, hA, hok]
        · rw [if_neg h0] at hml
          obtain ⟨_, hA2⟩ := hq_inv_mergeLoop Q Bins t f _ c' hml hInv
          rw [hA2, hok]

/-- A fresh engine on a one-edge graph driven by the quantile provider
(`Q = 50`, `Bins = 4`), all histograms empty. -/
def c4Init : EngineState (List HQ.Histogram) :=
  ⟨{ graph := { edges := [(1, 2)], removedE := fun _ => false },
     scores := fun _ => 0,
     stale := fun _ => false,
     deleted := fun _ => false,
     queue := [],
     rootPaths := [],
     fnState := [],
     assertOk := true }, 0⟩

/-- The state `c4Init` reaches after `mergeUntil` at threshold `1`. -/
def c4Final : EngineState (List HQ.Histogram) :=
  (mergeUntil (hqFn 50 4) 1 2 c4Init).getD c4Init

/-- Witness for C4: the fresh one-edge engine satisfies the invariant,
the run succeeds, and `assertOk` is still true afterwards. -/
theorem c4_stale_rescore_never_decreases_witness :
    hqInv 50 4 c4Init.core ∧ c4Init.core.assertOk = true ∧
    mergeUntil (hqFn 50 4) 1 2 c4Init = some c4Final ∧
    c4Final.core.assertOk = true := by
  have hInv : hqInv 50 4 c4Init.core := by
    constructor
    · intro e
      show (HQ.histAt 4 [] e).length = 4
      simp [HQ.histAt, HQ.clearH]
    · intro e
      show (0 : ℚ) ≤ HQ.scoreQ 50 4 (HQ.histAt 4 [] e)
      simp only [HQ.histAt, List.getD_nil]
      decide
  exact ⟨hInv, rfl, rfl,
    c4_stale_rescore_never_decreases 50 4 1 2 c4Init c4Final hInv rfl rfl⟩

end Engine
